import Mathlib

/-!
Verification development for the prefix-notation calculator core
(sources under src/: pcalc_value.rs, pcalc_binary_ops.rs, pcalc_unary_ops.rs,
pcalc_variable_table.rs, pcalc_function_table.rs, pcalc_environment.rs,
pcalc_function.rs, pcalc_recursive_check.rs, pcalc_code.rs, pcalc_lexer.rs,
pcalc_parser.rs).

Modelling conventions:
* Rust `f64` scalars are modelled by `Rat`.  Every claim settled here depends
  only on the two-kind value tags, on exact equality of small integers, and on
  control flow; none depends on rounding, infinities or NaN, so the rational
  model is adequate and is noted wherever an operation (division, powf,
  transcendentals) would differ on exotic floats.
* Rust `HashMap` tables are modelled as association lists with first-match
  lookup; `HashSet` worklists as duplicate-free lists in first-insertion
  order.  The checker traversal outcome is independent of set iteration
  order; only the reported intermediate name depends on it (spec section 9
  notes this), and no claim here depends on that name beyond the concrete
  deterministic instances computed.
* The tree-walking evaluator recurses through host recursion in Rust; here it
  takes an explicit depth budget (`fuel`), decremented once per tree level
  and per function call.  Every theorem is conditional on evaluation
  outcomes, so no fuel-sufficiency lemma is required.
-/

namespace PCalc

/-- Two-kind scalar value, from pcalc_value.rs (`enum Value { Num(f64), Bool(bool) }`). -/
inductive Value where
  | num (n : ℚ)
  | bool (b : Bool)
deriving DecidableEq, Repr

/-- `Value::from_num`. -/
def Value.from_num (n : ℚ) : Value := .num n

/-- `Value::from_bool`. -/
def Value.from_bool (b : Bool) : Value := .bool b

/-- `Value::is_num`. -/
def Value.is_num : Value → Bool
  | .num _ => true
  | .bool _ => false

/-- `Value::is_bool`. -/
def Value.is_bool : Value → Bool
  | .num _ => false
  | .bool _ => true

/-- `Value::to_string` / `Display` (numeric rendering is a presentation
detail; no claim depends on the exact digits). -/
def Value.display : Value → String
  | .num n => toString n
  | .bool b => toString b

/-- `Value::to_num`: fallible strict conversion. -/
def Value.to_num : Value → Except String ℚ
  | .num n => .ok n
  | .bool b => .error ((Value.bool b).display ++ " not a number")

/-- `Value::to_bool`: fallible strict conversion. -/
def Value.to_bool : Value → Except String Bool
  | .num n => .error ((Value.num n).display ++ " not a boolean")
  | .bool b => .ok b

/-- Modelled from the spec: `Value::as_bool` is called by `Conditional::eval`
(pcalc_code.rs line 310) and by `bool_cast` (pcalc_unary_ops.rs line 151) but
its definition is absent from the pcalc_value.rs in this snapshot (only its
callers are present).  Both call sites force it to be a total function
returning a plain `bool` (no error propagation).  The REPL help example
`and asbool 5 true` evaluating to `true` (pcalc_help.rs line 29) fixes a
nonzero number to coerce to `true`; a boolean coerces to itself; zero is
taken to coerce to `false` (the standard nonzero test). -/
def Value.as_bool : Value → Bool
  | .num n => if n = 0 then false else true
  | .bool b => b

/-- Modelled from the spec: `Value::as_num` is called by `num_cast`
(pcalc_unary_ops.rs line 146) but absent from pcalc_value.rs in this
snapshot.  The help example `+ 5 asnum true` evaluating to `6`
(pcalc_help.rs line 31) fixes `true` to coerce to `1`; `false` to `0`;
a number coerces to itself. -/
def Value.as_num : Value → ℚ
  | .num n => n
  | .bool b => if b then 1 else 0

/-- `impl PartialEq for Value` (pcalc_value.rs lines 90-97): equal only when
the tags match and the payloads are equal. -/
def Value.eq : Value → Value → Bool
  | .num n, .num m => n == m
  | .bool a, .bool b => a == b
  | _, _ => false

/-- `impl PartialOrd for Value` (pcalc_value.rs lines 99-111): `None` on
mixed tags, payload comparison otherwise (`false < true` for booleans). -/
def Value.cmp : Value → Value → Option Ordering
  | .num n, .num m => some (if n < m then .lt else if n = m then .eq else .gt)
  | .bool a, .bool b => some (if a = b then .eq else if b then .lt else .gt)
  | _, _ => none

/-- Rust `<` derived from `partial_cmp` (mixed tags give `false`). -/
def Value.ltb (v w : Value) : Bool := v.cmp w == some .lt

/-- Rust `<=` derived from `partial_cmp`. -/
def Value.leb (v w : Value) : Bool := v.cmp w == some .lt || v.cmp w == some .eq

/-- Rust `>` derived from `partial_cmp`. -/
def Value.gtb (v w : Value) : Bool := v.cmp w == some .gt

/-- Rust `>=` derived from `partial_cmp`. -/
def Value.geb (v w : Value) : Bool := v.cmp w == some .gt || v.cmp w == some .eq

/-- Truncation toward zero, modelling the rounding used by `f64` `%` and
`trunc`/`fract`.  No claim depends on these values. -/
def ratTrunc (q : ℚ) : ℚ := ((q.num.tdiv (q.den : ℤ) : ℤ) : ℚ)

/-- Models `f64::powf`.  Exact only for integer exponents under the rational
value model; no claim depends on powf values, only on its numeric-operand
type check. -/
def ratPow (a b : ℚ) : ℚ :=
  if b.den = 1 then (if 0 ≤ b.num then a ^ b.num.toNat else (a ^ (-b.num).toNat)⁻¹) else 0

/-- The sixteen binary operators of pcalc_binary_ops.rs, named after the
source functions bound by `bop2ftn`. -/
inductive BinaryFtn where
  | add | subtract | multiply | divide | remainder | power
  | maximum | minimum
  | equal | not_equal | less | less_equal | greater | greater_equal
  | logical_and | logical_or
deriving DecidableEq, Repr

/-- The shared `Ok(from_num(lhs.to_num()? OP rhs.to_num()?))` shape of the
arithmetic binary-operator functions of pcalc_binary_ops.rs. -/
def numericBinOp (ftn : ℚ → ℚ → ℚ) (lhs rhs : Value) : Except String Value :=
  match lhs.to_num with
  | .error e => .error e
  | .ok a =>
    match rhs.to_num with
    | .error e => .error e
    | .ok b => .ok (.num (ftn a b))

/-- The body of each binary-operator function of pcalc_binary_ops.rs
(lines 4-81).  Arithmetic and max/min go through the strict `to_num`;
comparisons go through `PartialEq`/`PartialOrd` (total, never an error);
`logical_and`/`logical_or` mirror the Rust `&&`/`||` exactly: the right
operand conversion runs only when the left does not short-circuit.
Division by zero and `%`/`powf` values differ from IEEE-754 on the rational
model; no claim depends on them. -/
def applyBinary : BinaryFtn → Value → Value → Except String Value
  | .add, lhs, rhs => numericBinOp (fun a b => a + b) lhs rhs
  | .subtract, lhs, rhs => numericBinOp (fun a b => a - b) lhs rhs
  | .multiply, lhs, rhs => numericBinOp (fun a b => a * b) lhs rhs
  | .divide, lhs, rhs => numericBinOp (fun a b => a / b) lhs rhs
  | .remainder, lhs, rhs => numericBinOp (fun a b => a - b * ratTrunc (a / b)) lhs rhs
  | .power, lhs, rhs => numericBinOp ratPow lhs rhs
  | .maximum, lhs, rhs => numericBinOp max lhs rhs
  | .minimum, lhs, rhs => numericBinOp min lhs rhs
  | .equal, lhs, rhs => .ok (.bool (lhs.eq rhs))
  | .not_equal, lhs, rhs => .ok (.bool (!lhs.eq rhs))
  | .less, lhs, rhs => .ok (.bool (lhs.ltb rhs))
  | .less_equal, lhs, rhs => .ok (.bool (lhs.leb rhs))
  | .greater, lhs, rhs => .ok (.bool (lhs.gtb rhs))
  | .greater_equal, lhs, rhs => .ok (.bool (lhs.geb rhs))
  | .logical_and, lhs, rhs =>
    match lhs.to_bool with
    | .error e => .error e
    | .ok lb =>
      if lb then
        match rhs.to_bool with
        | .error e => .error e
        | .ok rb => .ok (.bool rb)
      else .ok (.bool false)
  | .logical_or, lhs, rhs =>
    match lhs.to_bool with
    | .error e => .error e
    | .ok lb =>
      if lb then .ok (.bool true)
      else
        match rhs.to_bool with
        | .error e => .error e
        | .ok rb => .ok (.bool rb)

/-- `bop2ftn` (pcalc_binary_ops.rs lines 87-107). -/
def bop2ftn : String → Option BinaryFtn
  | "+" => some .add
  | "-" => some .subtract
  | "*" => some .multiply
  | "/" => some .divide
  | "%" => some .remainder
  | "^" => some .power
  | "max" => some .maximum
  | "min" => some .minimum
  | "==" => some .equal
  | "!=" => some .not_equal
  | "<" => some .less
  | "<=" => some .less_equal
  | ">" => some .greater
  | ">=" => some .greater_equal
  | "and" => some .logical_and
  | "or" => some .logical_or
  | _ => none

/-- The thirty unary operators of pcalc_unary_ops.rs, named after the source
functions bound by `uop2ftn`. -/
inductive UnaryFtn where
  | square_root | exponential | exponential2
  | natural_logarithm | logarithm2 | logarithm10
  | trig_sin | trig_cos | trig_tan | trig_sinh | trig_cosh | trig_tanh
  | trig_asin | trig_acos | trig_atan | trig_asinh | trig_acosh | trig_atanh
  | sign | absolute | reciprocal | fraction | truncate
  | ceiling | floor_op | round_op | negate | logical_not
  | num_cast | bool_cast
deriving DecidableEq, Repr

/-- Placeholder for the transcendental `f64` functions (sqrt, exp, ln, log,
trig and their inverses).  Their numeric values are irrelevant to every
claim; what the claims exercise is that these operators route the operand
through the strict `to_num` conversion. -/
def transcendentalValue : UnaryFtn → ℚ → ℚ := fun _ _ => 0

/-- The shared `Ok(from_num(ftn(val.to_num()?)))` shape of the numeric
unary-operator functions of pcalc_unary_ops.rs. -/
def numericUnOp (ftn : ℚ → ℚ) (v : Value) : Except String Value :=
  match v.to_num with
  | .error e => .error e
  | .ok n => .ok (.num (ftn n))

/-- The body of each unary-operator function of pcalc_unary_ops.rs
(lines 4-152).  All numeric operators go through the strict `to_num`;
`logical_not` goes through the strict `to_bool`; `num_cast`/`bool_cast`
are the total `as_num`/`as_bool` coercions.  `reciprocal` of zero and the
rounding of `round` differ from f64 on the rational model; no claim
depends on those values. -/
def applyUnary : UnaryFtn → Value → Except String Value
  | .sign, v => numericUnOp (fun n => if n < 0 then -1 else 1) v
  | .absolute, v => numericUnOp (fun n => |n|) v
  | .reciprocal, v => numericUnOp (fun n => n⁻¹) v
  | .fraction, v => numericUnOp (fun n => n - ratTrunc n) v
  | .truncate, v => numericUnOp ratTrunc v
  | .ceiling, v => numericUnOp (fun n => ((⌈n⌉ : ℤ) : ℚ)) v
  | .floor_op, v => numericUnOp (fun n => ((⌊n⌋ : ℤ) : ℚ)) v
  | .round_op, v => numericUnOp (fun n => ((round n : ℤ) : ℚ)) v
  | .negate, v => numericUnOp (fun n => -n) v
  | .logical_not, v =>
    match v.to_bool with
    | .error e => .error e
    | .ok b => .ok (.bool (!b))
  | .num_cast, v => .ok (.num v.as_num)
  | .bool_cast, v => .ok (.bool v.as_bool)
  | op, v => numericUnOp (transcendentalValue op) v

/-- `uop2ftn` (pcalc_unary_ops.rs lines 158-192). -/
def uop2ftn : String → Option UnaryFtn
  | "sqrt" => some .square_root
  | "exp" => some .exponential
  | "exp2" => some .exponential2
  | "ln" => some .natural_logarithm
  | "log2" => some .logarithm2
  | "log10" => some .logarithm10
  | "sin" => some .trig_sin
  | "cos" => some .trig_cos
  | "tan" => some .trig_tan
  | "sinh" => some .trig_sinh
  | "cosh" => some .trig_cosh
  | "tanh" => some .trig_tanh
  | "asin" => some .trig_asin
  | "acos" => some .trig_acos
  | "atan" => some .trig_atan
  | "asinh" => some .trig_asinh
  | "acosh" => some .trig_acosh
  | "atanh" => some .trig_atanh
  | "sign" => some .sign
  | "abs" => some .absolute
  | "recip" => some .reciprocal
  | "fract" => some .fraction
  | "trunc" => some .truncate
  | "ceil" => some .ceiling
  | "floor" => some .floor_op
  | "round" => some .round_op
  | "neg" => some .negate
  | "not" => some .logical_not
  | "asnum" => some .num_cast
  | "asbool" => some .bool_cast
  | _ => none

/-- The closed AST node set of pcalc_code.rs: NoOp, Literal, DefVar, SetVar,
GetVar, BinaryOp, UnaryOp, XPrint, Defun, Funcall, Conditional.  A `Defun`
node owns its name, parameter list and body expressions (the `Function`
value it installs is assembled in `Defun::new`). -/
inductive Code where
  | NoOp
  | Literal (value : Value)
  | DefVar (name : String) (code : Code)
  | SetVar (name : String) (code : Code)
  | GetVar (name : String)
  | BinaryOp (op_ftn : BinaryFtn) (lhs_arg rhs_arg : Code)
  | UnaryOp (op_ftn : UnaryFtn) (arg : Code)
  | XPrint (expr : Code)
  | Defun (name : String) (params : List String) (body : List Code)
  | Funcall (name : String) (args : List Code)
  | Conditional (cond true_code false_code : Code)
deriving Repr

/-- `Code::is_funcall`: `true` only for the `Funcall` node
(pcalc_code.rs lines 20-23 and 274-277). -/
def Code.is_funcall : Code → Bool
  | .Funcall _ _ => true
  | _ => false

/-- `Code::get_name`: the bound name of DefVar, SetVar, GetVar, Defun and
Funcall nodes; `None` for the rest (pcalc_code.rs). -/
def Code.get_name : Code → Option String
  | .DefVar name _ => some name
  | .SetVar name _ => some name
  | .GetVar name => some name
  | .Defun name _ _ => some name
  | .Funcall name _ => some name
  | _ => none

/-- `Code::is_evaluable`: `false` only for `NoOp` (pcalc_code.rs lines 15-18
and 56-59). -/
def Code.is_evaluable : Code → Bool
  | .NoOp => false
  | _ => true

/-- `Conditional::when` (pcalc_code.rs lines 299-306): the one-armed
conditional, whose false branch is the literal boolean `false`. -/
def Conditional.when (cond true_code : Code) : Code :=
  .Conditional cond true_code (.Literal (.bool false))

/-- Replace the value bound to the first occurrence of `name`; identity when
`name` is absent.  Models in-place `HashMap` mutation of an existing entry. -/
def replaceBinding {α : Type} : List (String × α) → String → α → List (String × α)
  | [], _, _ => []
  | (k, v) :: rest, name, newv =>
    if k = name then (k, newv) :: rest else (k, v) :: replaceBinding rest name newv

/-- Membership of a key in an association list. -/
def containsKey {α : Type} (table : List (String × α)) (name : String) : Bool :=
  table.any (fun p => p.1 == name)

/-- First-match lookup in an association list, modelling `HashMap::get`. -/
def lookupKey {α : Type} : List (String × α) → String → Option α
  | [], _ => none
  | (k, v) :: rest, name => if k = name then some v else lookupKey rest name

/-- pcalc_variable_table.rs: `struct VariableTable { table: HashMap<String, Value> }`. -/
structure VariableTable where
  table : List (String × Value)
deriving DecidableEq, Repr

/-- `VariableTable::new`. -/
def VariableTable.new : VariableTable := ⟨[]⟩

/-- `VariableTable::get` (pcalc_variable_table.rs lines 14-20). -/
def VariableTable.get (vt : VariableTable) (name : String) : Except String Value :=
  match lookupKey vt.table name with
  | some v => .ok v
  | none => .error ("Unknown variable \x27" ++ name ++ "\x27")

/-- `VariableTable::def` (pcalc_variable_table.rs lines 22-29): insert when
absent, duplicate-definition error when present.  (`def` is a reserved word
in Lean, hence the name `define`.)  The source returns `Ok(value)` on
success; here the new table is returned and the caller re-supplies the
value, which is the same value just stored. -/
def VariableTable.define (vt : VariableTable) (name : String) (value : Value) :
    Except String VariableTable :=
  if containsKey vt.table name then
    .error ("Duplicate variable definition \x27" ++ name ++ "\x27")
  else
    .ok ⟨vt.table ++ [(name, value)]⟩

/-- `VariableTable::set` (pcalc_variable_table.rs lines 31-38): overwrite
when present, unknown-variable error when absent.  The source returns
`Ok(value)` on success. -/
def VariableTable.set (vt : VariableTable) (name : String) (value : Value) :
    Except String VariableTable :=
  if containsKey vt.table name then
    .ok ⟨replaceBinding vt.table name value⟩
  else
    .error ("Unknown variable \x27" ++ name ++ "\x27")

/-- pcalc_function.rs: `struct Function { params: Parameters, body: Expressions }`. -/
structure Function where
  params : List String
  body : List Code
deriving Repr

/-- pcalc_function_table.rs: `struct FunctionTable { funcs: HashMap<String, Function> }`. -/
structure FunctionTable where
  funcs : List (String × Function)
deriving Repr

/-- `FunctionTable::new`. -/
def FunctionTable.new : FunctionTable := ⟨[]⟩

/-- `FunctionTable::get` (pcalc_function_table.rs lines 14-20). -/
def FunctionTable.get (ft : FunctionTable) (name : String) : Except String Function :=
  match lookupKey ft.funcs name with
  | some f => .ok f
  | none => .error ("Unknown function \x27" ++ name ++ "\x27")

/-- `FunctionTable::def` (pcalc_function_table.rs lines 22-28): overwrite an
existing entry in place, insert otherwise; never fails.  (`def` is a
reserved word in Lean, hence `define`.) -/
def FunctionTable.define (ft : FunctionTable) (name : String) (func : Function) :
    FunctionTable :=
  if containsKey ft.funcs name then ⟨replaceBinding ft.funcs name func⟩
  else ⟨ft.funcs ++ [(name, func)]⟩

/-- pcalc_environment.rs: `struct Environment { vars: VariableTable, funcs: FunctionTablePtr }`.
The `Rc` indirection of `FunctionTablePtr` is flattened: sharing only
matters at the one place an environment is constructed from another
(`with_parent_funcs`), and the evaluator below threads tables explicitly. -/
structure Environment where
  vars : VariableTable
  funcs : FunctionTable
deriving Repr

/-- `Environment::new` and `impl Default for Environment`: both tables empty. -/
def Environment.new : Environment := ⟨VariableTable.new, FunctionTable.new⟩

/-- `Environment::with_parent_funcs` (pcalc_environment.rs lines 19-24):
fresh variable table, the parent function table shared.  Note: the
`Function::eval` of this snapshot does NOT call it; it builds the callee
environment with `Default::default()` instead (pcalc_function.rs line 25). -/
def Environment.with_parent_funcs (parent : Environment) : Environment :=
  ⟨VariableTable.new, parent.funcs⟩

/-- Evaluation state: the environment acted on by `&mut Environment`, plus
the trace of values printed by `XPrint` (the sole observable side channel). -/
structure EvalState where
  env : Environment
  out : List Value
deriving Repr

/-- `CheckError` of pcalc_recursive_check.rs with its three constructors. -/
inductive CheckError where
  | self_recursive (name : String)
  | dual_recursive (name1 name2 : String)
  | cross_recursive (name1 name2 : String)
deriving DecidableEq, Repr

/-- The `CheckError` message strings (pcalc_recursive_check.rs lines 16-32). -/
def CheckError.message : CheckError → String
  | .self_recursive name =>
      "Self recursive function \x27" ++ name ++ "\x27"
  | .dual_recursive name1 name2 =>
      "Dual recursive functions \x27" ++ name1 ++ "\x27 and \x27" ++ name2 ++ "\x27"
  | .cross_recursive name1 name2 =>
      "Cross recursive functions \x27" ++ name1 ++ "\x27 and \x27" ++ name2 ++ "\x27"

/-- The direct-call name collection used by every function of
pcalc_recursive_check.rs: `body.iter().filter(|c| c.is_funcall()).map(|c|
c.get_name().unwrap_or(""))` — the names of the top-level body expressions
that are `Funcall` nodes, in order. -/
def call_names (body : List Code) : List String :=
  (body.filter Code.is_funcall).map (fun c => c.get_name.getD "")

/-- `check_self_recursive` (pcalc_recursive_check.rs lines 52-65): error
exactly when the count of direct body calls of `name` is positive. -/
def check_self_recursive (name : String) (func : Function) : Except CheckError Unit :=
  if 0 < ((call_names func.body).filter (fun n => n == name)).length then
    .error (.self_recursive name)
  else
    .ok ()

/-- Insertion into a `HashSet` modelled as a duplicate-free list
(no-op when the element is present). -/
def setInsert (l : List String) (x : String) : List String :=
  if x ∈ l then l else l ++ [x]

/-- `collect::<HashSet<_>>` over a name sequence, modelled in
first-insertion order. -/
def setOfList (l : List String) : List String := l.foldl setInsert []

/-- The initial worklist of `check_cross_recursive` (lines 95-101): the
distinct direct body-call names, dropping the empty name and the name under
definition. -/
def initialCalls (name : String) (func : Function) : List String :=
  setOfList ((call_names func.body).filter (fun n => !(n == "") && !(n == name)))

/-- The inner `for fc in f.body() ... ` loop of `check_cross_recursive`
(lines 109-119): walk the direct call names of the function `nm` popped from
the worklist; a call of `name` is the cross-recursion error; any other name
not yet visited enters the worklist (set insertion, so names already
pending are not duplicated). -/
def expandCalls (name nm : String) :
    List String → List String → List String → Except CheckError (List String)
  | [], to_visit, _ => .ok to_visit
  | c :: cs, to_visit, visited =>
    if c = name then .error (.cross_recursive name nm)
    else if c ∈ visited then expandCalls name nm cs to_visit visited
    else expandCalls name nm cs (setInsert to_visit c) visited

/-- The `while !to_visit.is_empty()` worklist loop of `check_cross_recursive`
(lines 103-121): pop a name, mark it visited, expand it through the current
function table when defined there.  The Rust loop needs no bound because the
visited set only grows inside the finite universe of names (spec section
4.4); the model makes that explicit with a `gas` argument that the entry
point sets to that cardinality bound, making the `gas = 0` branch
unreachable from `check_cross_recursive`. -/
def crossLoop (tbl : FunctionTable) (name : String) :
    Nat → List String → List String → Except CheckError Unit
  | _, [], _ => .ok ()
  | 0, _ :: _, _ => .ok ()
  | gas + 1, nm :: rest, visited =>
    let visited' := nm :: visited
    match lookupKey tbl.funcs nm with
    | none => crossLoop tbl name gas rest visited'
    | some f =>
      match expandCalls name nm (call_names f.body) rest visited' with
      | .error e => .error e
      | .ok tv => crossLoop tbl name gas tv visited'

/-- All names that the worklist can ever hold: the initial call names plus
the keys and the direct call names stored in the table. -/
def nameUniverse (tbl : FunctionTable) (init : List String) : List String :=
  init ++ tbl.funcs.map Prod.fst ++ (tbl.funcs.map (fun p => call_names p.2.body)).flatten

/-- `check_cross_recursive` (pcalc_recursive_check.rs lines 94-123). -/
def check_cross_recursive (name : String) (func : Function) (tbl : FunctionTable) :
    Except CheckError Unit :=
  let init := initialCalls name func
  crossLoop tbl name (nameUniverse tbl init).length init []

/-- The `for expr in self.body ... result = expr.eval(func_env)?` loop of
`Function::eval` (pcalc_function.rs lines 30-33): evaluate the expressions
in order, result is the last value, starting from the `Num(0)` initial
result (so an empty body yields number 0); an error stops the loop and
propagates. -/
def evalSeqWith (ev : Code → EvalState → Except String Value × EvalState) :
    List Code → EvalState → Value → Except String Value × EvalState
  | [], st, result => (.ok result, st)
  | e :: rest, st, _ =>
    match ev e st with
    | (.ok v, st') => evalSeqWith ev rest st' v
    | (.error err, st') => (.error err, st')

/-- The `for (param, arg) in zip(&self.params, args) ...
func_env.def(param, arg.eval(call_env)?)?` loop of `Function::eval`
(pcalc_function.rs lines 26-28): each argument is evaluated in the caller
state and bound to its parameter in the callee variable table under
construction; `zip` stops at the shorter list; an argument-evaluation error
or a duplicate-parameter definition error propagates. -/
def evalBindWith (ev : Code → EvalState → Except String Value × EvalState) :
    List String → List Code → EvalState → VariableTable →
    Except String VariableTable × EvalState
  | [], _, st, acc => (.ok acc, st)
  | _ :: _, [], st, acc => (.ok acc, st)
  | p :: ps, a :: rest, st, acc =>
    match ev a st with
    | (.error e, st') => (.error e, st')
    | (.ok v, st') =>
      match acc.define p v with
      | .error e => (.error e, st')
      | .ok acc' => evalBindWith ev ps rest st' acc'

/-- `Function::eval` (pcalc_function.rs lines 20-36), parameterised by the
evaluator used for sub-expressions.  The arity check comes first, before any
argument is evaluated or bound.  The callee environment is built with
`Default::default()` — a completely fresh `Environment` whose function table
is new and empty; `Environment::with_parent_funcs` is NOT used here.  The
printed-output trace is global (stdout), so it threads through the callee;
the callee environment itself is dropped and the caller environment (as
mutated by argument evaluation) is kept. -/
def Function.evalWith (ev : Code → EvalState → Except String Value × EvalState)
    (func : Function) (st : EvalState) (args : List Code) :
    Except String Value × EvalState :=
  if args.length ≠ func.params.length then
    (.error "Invalid arguments length", st)
  else
    match evalBindWith ev func.params args st VariableTable.new with
    | (.error e, st') => (.error e, st')
    | (.ok fvars, st') =>
      let func_env : Environment := { vars := fvars, funcs := FunctionTable.new }
      match evalSeqWith ev func.body { env := func_env, out := st'.out } (.num 0) with
      | (r, stb) => (r, { env := st'.env, out := stb.out })

/-- The tree-walking evaluator: `Code::eval` of every node kind of
pcalc_code.rs, with an explicit depth budget consumed one unit per tree
level and per function call (the Rust original recurses on the host stack).
Every theorem below is conditional on evaluation outcomes, so the budget
never needs a sufficiency argument. -/
def evalCode : Nat → Code → EvalState → Except String Value × EvalState
  | 0, _, st => (.error "Recursion depth exhausted", st)
  | fuel + 1, code, st =>
    match code with
    | .NoOp => (.error "Eval called on noop", st)
    | .Literal v => (.ok v, st)
    | .DefVar name c =>
      match evalCode fuel c st with
      | (.error e, st') => (.error e, st')
      | (.ok v, st') =>
        match st'.env.vars.define name v with
        | .error e => (.error e, st')
        | .ok vt => (.ok v, { st' with env := { st'.env with vars := vt } })
    | .SetVar name c =>
      match evalCode fuel c st with
      | (.error e, st') => (.error e, st')
      | (.ok v, st') =>
        match st'.env.vars.set name v with
        | .error e => (.error e, st')
        | .ok vt => (.ok v, { st' with env := { st'.env with vars := vt } })
    | .GetVar name => (st.env.vars.get name, st)
    | .BinaryOp op l r =>
      match evalCode fuel l st with
      | (.error e, st') => (.error e, st')
      | (.ok lv, st') =>
        match evalCode fuel r st' with
        | (.error e, st'') => (.error e, st'')
        | (.ok rv, st'') => (applyBinary op lv rv, st'')
    | .UnaryOp op a =>
      match evalCode fuel a st with
      | (.error e, st') => (.error e, st')
      | (.ok v, st') => (applyUnary op v, st')
    | .XPrint c =>
      match evalCode fuel c st with
      | (.error e, st') => (.error e, st')
      | (.ok v, st') => (.ok v, { st' with out := st'.out ++ [v] })
    | .Defun name params body =>
      let func : Function := ⟨params, body⟩
      match check_self_recursive name func with
      | .error e => (.error e.message, st)
      | .ok _ =>
        match check_cross_recursive name func st.env.funcs with
        | .error e => (.error e.message, st)
        | .ok _ =>
          (.ok (.bool true),
           { st with env := { st.env with funcs := st.env.funcs.define name func } })
    | .Funcall name args =>
      match st.env.funcs.get name with
      | .error e => (.error e, st)
      | .ok func => Function.evalWith (evalCode fuel) func st args
    | .Conditional cond true_code false_code =>
      match evalCode fuel cond st with
      | (.error e, st') => (.error e, st')
      | (.ok v, st') =>
        if v.as_bool then evalCode fuel true_code st'
        else evalCode fuel false_code st'

/-- The token kinds of pcalc_lexer.rs (`enum TokenType`). -/
inductive TokenType where
  | BinaryOp | UnaryOp | SpecialFtn | Literal | Const | Define | Assign
  | Identifier | Defun | Funcall | Begin | End | CEnd | If | Then | Else | Fi
deriving DecidableEq, Repr

/-- `TokenType::to_string` (pcalc_lexer.rs lines 55-77). -/
def TokenType.str : TokenType → String
  | .BinaryOp => "BinaryOp"
  | .UnaryOp => "UnaryOp"
  | .SpecialFtn => "SpecialFtn"
  | .Literal => "Literal"
  | .Const => "Const"
  | .Define => "Define"
  | .Assign => "Assign"
  | .Identifier => "Identifier"
  | .Defun => "Defun"
  | .Funcall => "Funcall"
  | .Begin => "Begin"
  | .End => "End"
  | .CEnd => "CEnd"
  | .If => "If"
  | .Then => "Then"
  | .Else => "Else"
  | .Fi => "Fi"

/-- `struct Token { ttype, tname }`. -/
structure Token where
  ttype : TokenType
  tname : String
deriving DecidableEq, Repr

/-- The binary-operator lexemes (`keywords::binary_ops`). -/
def binary_op_names : List String :=
  ["+", "-", "*", "/", "%", "^", "max", "min",
   "==", "!=", "<", "<=", ">", ">=", "and", "or"]

/-- The unary-operator lexemes.  The pcalc_keywords.rs of this snapshot is an
older revision that stops at `NOT`; the `asnum`/`asbool` entries are pinned
by `uop2ftn` (pcalc_unary_ops.rs lines 188-189) and the help text. -/
def unary_op_names : List String :=
  ["sqrt", "exp", "exp2", "ln", "log2", "log10",
   "sin", "cos", "tan", "sinh", "cosh", "tanh",
   "asin", "acos", "atan", "asinh", "acosh", "atanh",
   "sign", "abs", "recip", "fract", "trunc",
   "ceil", "floor", "round", "neg", "not", "asnum", "asbool"]

/-- The special-function lexemes (`keywords::special_ftns`), pinned by
`make_special_ftn` and the parser tests (`xprint`). -/
def special_ftn_names : List String := ["xprint"]

/-- The constant lexemes; `phi` is pinned by `make_const` and the parser
tests, though the older pcalc_keywords.rs revision lists only pi, tau, e. -/
def constant_names : List String := ["pi", "tau", "e", "phi"]

/-- The reserved-word lookup table built by `Lexer::make_token_types`
(pcalc_lexer.rs lines 199-233).  The keyword string constants DEFUN, FUNCALL,
BEGIN, END, CEND, IF, THEN, ELSE and FI are absent from the older
pcalc_keywords.rs revision in this snapshot; their values
`def call begin end cend if ? : fi` are pinned by the parser tests
(pcalc_parser.rs lines 445-528) and the REPL help examples. -/
def keywordType (token : String) : Option TokenType :=
  if token ∈ binary_op_names then some .BinaryOp
  else if token ∈ unary_op_names then some .UnaryOp
  else if token ∈ special_ftn_names then some .SpecialFtn
  else if token ∈ constant_names then some .Const
  else if token = "true" ∨ token = "false" then some .Literal
  else if token = "var" then some .Define
  else if token = "=" then some .Assign
  else if token = "def" then some .Defun
  else if token = "call" then some .Funcall
  else if token = "begin" then some .Begin
  else if token = "end" then some .End
  else if token = "cend" then some .CEnd
  else if token = "if" then some .If
  else if token = "?" then some .Then
  else if token = ":" then some .Else
  else if token = "fi" then some .Fi
  else none

/-- `Lexer::is_valid_identifier` (pcalc_lexer.rs lines 195-197): leading
letter, remaining characters alphanumeric or underscore.  Rust uses the
Unicode classes; the ASCII approximation is immaterial to every claim. -/
def is_valid_identifier (token : String) : Bool :=
  match token.toList with
  | [] => false
  | c :: _ => c.isAlpha && token.toList.all (fun ch => ch.isAlphanum || ch == '_')

/-- `l.all Char.isDigit` on a nonempty list. -/
def digits1 (l : List Char) : Bool := !l.isEmpty && l.all Char.isDigit

/-- Strip one optional leading sign. -/
def stripSign : List Char → List Char
  | [] => []
  | c :: rest => if c == '+' || c == '-' then rest else c :: rest

/-- A mantissa: digits with an optional point, digits on at least one side. -/
def isMantissa (l : List Char) : Bool :=
  match l.span (fun c => c != '.') with
  | (intPart, []) => digits1 intPart
  | (intPart, _ :: fracPart) =>
    (!intPart.isEmpty || !fracPart.isEmpty) &&
      intPart.all Char.isDigit && fracPart.all Char.isDigit

/-- Models `str::parse::<f64>().is_ok()` (used in `Lexer::token_type`,
pcalc_lexer.rs line 122): optional sign, then `inf`/`infinity`/`nan`
(case-insensitive) or a mantissa with an optional signed exponent.  No claim
depends on the exact set of lexemes accepted, only on the classification
being a fixed function of the lexeme. -/
def is_f64_literal (s : String) : Bool :=
  let lower := String.mk (s.data.map Char.toLower)
  if lower ∈ ["inf", "+inf", "-inf", "infinity", "+infinity", "-infinity",
              "nan", "+nan", "-nan"] then true
  else
    let body := stripSign s.toList
    match body.span (fun c => c != 'e' && c != 'E') with
    | (mant, []) => isMantissa mant
    | (mant, _ :: expPart) => isMantissa mant && digits1 (stripSign expPart)

/-- `Lexer::token_type` (pcalc_lexer.rs lines 119-129): reserved-table
lookup, then numeric parse, then identifier validation, else the
invalid-identifier lexer error. -/
def token_type (token : String) : Except String TokenType :=
  match keywordType token with
  | some t => .ok t
  | none =>
    if is_f64_literal token then .ok .Literal
    else if is_valid_identifier token then .ok .Identifier
    else .error ("Invalid identifier - \x27" ++ token ++ "\x27")

/-- `Lexer::is_reserved` (line 155): membership in the reserved table. -/
def is_reserved (name : String) : Bool := (keywordType name).isSome

/-- `Lexer::check_reserved` (lines 160-165). -/
def check_reserved (tok : Token) (what : String) : Except String Unit :=
  if is_reserved tok.tname then
    .error ("Invalid reserved " ++ what ++ " - \x27" ++ tok.tname ++ "\x27")
  else .ok ()

/-- Rust `str::split_whitespace`: the maximal nonempty runs of
non-whitespace characters, in order.  Implemented by structural recursion
over the character list (the accumulator holds the current word reversed)
so that concrete parses reduce inside the kernel. -/
def split_whitespace_chars : List Char → List Char → List String
  | [], acc => if acc.isEmpty then [] else [String.mk acc.reverse]
  | c :: cs, acc =>
    if c.isWhitespace then
      if acc.isEmpty then split_whitespace_chars cs []
      else String.mk acc.reverse :: split_whitespace_chars cs []
    else split_whitespace_chars cs (c :: acc)

/-- Rust `str::split_whitespace` on a string. -/
def split_whitespace (s : String) : List String := split_whitespace_chars s.data []

/-- `Lexer::tokenize` (lines 131-136): classify and append each word; the
`?` aborts on the first bad word, keeping the words already pushed (the
caller then clears the buffer). -/
def tokenizeInto : List Token → List String → Except String Unit × List Token
  | toks, [] => (.ok (), toks)
  | toks, w :: ws =>
    match token_type w with
    | .error e => (.error e, toks)
    | .ok tt => tokenizeInto (toks ++ [⟨tt, w⟩]) ws

/-- `Lexer::starts_with` (lines 168-170). -/
def starts_with (buffer : List Token) (tt : TokenType) : Bool :=
  match buffer with
  | [] => false
  | t :: _ => t.ttype == tt

/-- `Lexer::ends_with` (lines 173-175). -/
def ends_with (buffer : List Token) (tt : TokenType) : Bool :=
  match buffer.getLast? with
  | none => false
  | some t => t.ttype == tt

/-- The numeric value of a decimal lexeme, for `tname.parse::<f64>()` inside
`Parser::make_literal`.  Exact for finite decimals with small exponents;
`inf`/`nan` and extreme exponents map to placeholder values, which no claim
observes (claim C9 concerns buffer control flow, not literal values). -/
def digitsToNat (l : List Char) : Nat :=
  l.foldl (fun acc c => acc * 10 + (c.toNat - 48)) 0

/-- Decimal-string value, `none` when not a plain mantissa. -/
def mantissaValue (l : List Char) : Option ℚ :=
  match l.span (fun c => c != '.') with
  | (intPart, []) => if digits1 intPart then some (digitsToNat intPart : ℚ) else none
  | (intPart, _ :: fracPart) =>
    if (!intPart.isEmpty || !fracPart.isEmpty) &&
        intPart.all Char.isDigit && fracPart.all Char.isDigit then
      some ((digitsToNat intPart : ℚ) +
        (digitsToNat fracPart : ℚ) / ((10 : ℚ) ^ fracPart.length))
    else none

/-- The parsed `f64` value of a lexeme accepted by `is_f64_literal`. -/
def f64_value (s : String) : ℚ :=
  let signed : ℚ → ℚ := fun q =>
    match s.toList with
    | '-' :: _ => -q
    | _ => q
  let body := stripSign s.toList
  match body.span (fun c => c != 'e' && c != 'E') with
  | (mant, []) => signed ((mantissaValue mant).getD 0)
  | (mant, _ :: expPart) =>
    let base := (mantissaValue mant).getD 0
    let ex := digitsToNat (stripSign expPart)
    match stripSign expPart, expPart with
    | _, '-' :: _ => signed (base / ((10 : ℚ) ^ ex))
    | _, _ => signed (base * ((10 : ℚ) ^ ex))

/-- `Parser::make_literal` (pcalc_parser.rs lines 127-134). -/
def make_literal (tname : String) : Except String Code :=
  if tname = "true" then .ok (.Literal (.bool true))
  else if tname = "false" then .ok (.Literal (.bool false))
  else if is_f64_literal tname then .ok (.Literal (.num (f64_value tname)))
  else .error "invalid float literal"

/-- The constant values bound by `Parser::make_const` (lines 136-149).
pi, tau and e are irrational; placeholders stand in for them, and no claim
observes these values. -/
def const_value (tname : String) : Option ℚ :=
  if tname = "pi" then some 0
  else if tname = "tau" then some 0
  else if tname = "e" then some 0
  else if tname = "phi" then some 0
  else none

/-- `Parser::make_const` (lines 136-149). -/
def make_const (tname : String) : Except String Code :=
  match const_value tname with
  | some v => .ok (.Literal (.num v))
  | none => .error ("Unknown constant - \x27" ++ tname ++ "\x27")

/-- The parameter-collection loop of `Parser::make_function`
(lines 179-191): consume tokens until `begin`, rejecting reserved names. -/
def collectParams : List Token → Except String (List String × List Token)
  | [] => .error "Invalid function definition/parameters"
  | t :: rest =>
    if t.ttype = .Begin then .ok ([], rest)
    else
      match check_reserved t "function parameter definition" with
      | .error e => .error e
      | .ok _ =>
        match collectParams rest with
        | .error e => .error e
        | .ok (ps, rest') => .ok (t.tname :: ps, rest')

/-- The body-collection loop of `Parser::make_function` (lines 192-202):
peek; stop consuming at `end`; otherwise parse one body expression with the
given sub-parser and continue.  The budget decreases once per collected
expression; `Parser::parse` supplies a budget larger than the buffer, and
every theorem is conditional on parse outcomes, so the exhaustion branch
needs no sufficiency lemma. -/
def collectBody (mk : List Token → Except String (Code × List Token)) :
    Nat → List Token → Except String (List Code × List Token)
  | _, [] => .error "Invalid function definition/body"
  | 0, _ :: _ => .error "Parse depth exhausted"
  | n + 1, t :: rest =>
    if t.ttype = .End then .ok ([], rest)
    else
      match mk (t :: rest) with
      | .error e => .error e
      | .ok (c, rest') =>
        match collectBody mk n rest' with
        | .error e => .error e
        | .ok (cs, rest'') => .ok (c :: cs, rest'')

/-- The argument-collection loop of `Parser::make_funcall` (lines 211-222):
peek; stop consuming at `cend`; otherwise parse one argument expression. -/
def collectArgs (mk : List Token → Except String (Code × List Token)) :
    Nat → List Token → Except String (List Code × List Token)
  | _, [] => .error "Invalid function call/arguments"
  | 0, _ :: _ => .error "Parse depth exhausted"
  | n + 1, t :: rest =>
    if t.ttype = .CEnd then .ok ([], rest)
    else
      match mk (t :: rest) with
      | .error e => .error e
      | .ok (c, rest') =>
        match collectArgs mk n rest' with
        | .error e => .error e
        | .ok (cs, rest'') => .ok (c :: cs, rest'')

/-- `Parser::make_conditional_part` (lines 245-260): parse one part, then
require the closing kind (or accept `fi` for the one-armed form, reported in
the returned flag). -/
def make_conditional_part (mk : List Token → Except String (Code × List Token))
    (endKind : TokenType) (or_fi : Bool) (toks : List Token) :
    Except String ((Code × Bool) × List Token) :=
  match mk toks with
  | .error e => .error e
  | .ok (part, rest) =>
    match rest with
    | [] => .error ("Incomplete if expression - missing \x27" ++ endKind.str ++ "\x27")
    | t :: rest' =>
      if t.ttype = endKind then .ok ((part, false), rest')
      else if or_fi && t.ttype == .Fi then .ok ((part, true), rest')
      else .error ("Invalid if expression - expecting \x27" ++ endKind.str ++ "\x27")

/-- `Parser::make_conditional` (lines 233-243). -/
def make_conditional (mk : List Token → Except String (Code × List Token))
    (toks : List Token) : Except String (Code × List Token) :=
  match make_conditional_part mk .Then false toks with
  | .error e => .error e
  | .ok ((cond, _), r1) =>
    match make_conditional_part mk .Else true r1 with
    | .error e => .error e
    | .ok ((true_code, stop), r2) =>
      if stop then .ok (Conditional.when cond true_code, r2)
      else
        match make_conditional_part mk .Fi false r2 with
        | .error e => .error e
        | .ok ((false_code, _), r3) => .ok (.Conditional cond true_code false_code, r3)

/-- `Parser::make_function` (lines 175-207): consume the name (rejecting
reserved ones), the parameters up to `begin`, the body up to `end`. -/
def make_function (mk : List Token → Except String (Code × List Token))
    (budget : Nat) (toks : List Token) : Except String (Code × List Token) :=
  match toks with
  | [] => .error "Invalid function definition"
  | ftok :: rest =>
    match check_reserved ftok "function name definition" with
    | .error e => .error e
    | .ok _ =>
      match collectParams rest with
      | .error e => .error e
      | .ok (params, rest2) =>
        match collectBody mk budget rest2 with
        | .error e => .error e
        | .ok (body, rest3) => .ok (.Defun ftok.tname params body, rest3)

/-- `Parser::make_funcall` (lines 209-227): consume the name, then the
argument expressions up to `cend`. -/
def make_funcall (mk : List Token → Except String (Code × List Token))
    (budget : Nat) (toks : List Token) : Except String (Code × List Token) :=
  match toks with
  | [] => .error "Invalid function call"
  | ftok :: rest =>
    match collectArgs mk budget rest with
    | .error e => .error e
    | .ok (args, rest2) => .ok (.Funcall ftok.tname args, rest2)

/-- `Parser::make_code` (pcalc_parser.rs lines 102-125): recursive descent
by leading token kind.  The explicit budget replaces host recursion and
decreases at each descent; `Parser::parse` supplies a budget larger than
the buffer length. -/
def make_code : Nat → List Token → Except String (Code × List Token)
  | 0, _ => .error "Parse depth exhausted"
  | budget + 1, toks =>
    match toks with
    | [] => .error "Expecting token"
    | first :: rest =>
      match first.ttype with
      | .Literal =>
        match make_literal first.tname with
        | .error e => .error e
        | .ok c => .ok (c, rest)
      | .Const =>
        match make_const first.tname with
        | .error e => .error e
        | .ok c => .ok (c, rest)
      | .Define =>
        match rest with
        | [] => .error "Incomplete variable definition"
        | ntok :: rest1 =>
          if ntok.ttype = .Identifier then
            match make_code budget rest1 with
            | .error e => .error e
            | .ok (c, rest2) => .ok (.DefVar ntok.tname c, rest2)
          else .error ("Invalid variable definition name - \x27" ++ ntok.tname ++ "\x27")
      | .Assign =>
        match rest with
        | [] => .error "Incomplete set variable"
        | ntok :: rest1 =>
          if ntok.ttype = .Identifier then
            match make_code budget rest1 with
            | .error e => .error e
            | .ok (c, rest2) => .ok (.SetVar ntok.tname c, rest2)
          else .error ("Invalid set variable name - \x27" ++ ntok.tname ++ "\x27")
      | .Defun => make_function (make_code budget) budget rest
      | .Funcall => make_funcall (make_code budget) budget rest
      | .BinaryOp =>
        match bop2ftn first.tname with
        | none => .error ("Unknown binary op - " ++ first.tname)
        | some ftn =>
          match make_code budget rest with
          | .error e => .error e
          | .ok (l, r1) =>
            match make_code budget r1 with
            | .error e => .error e
            | .ok (r, r2) => .ok (.BinaryOp ftn l r, r2)
      | .UnaryOp =>
        match uop2ftn first.tname with
        | none => .error ("Unknown unary op - " ++ first.tname)
        | some ftn =>
          match make_code budget rest with
          | .error e => .error e
          | .ok (c, r1) => .ok (.UnaryOp ftn c, r1)
      | .SpecialFtn =>
        if first.tname = "xprint" then
          match make_code budget rest with
          | .error e => .error e
          | .ok (c, r1) => .ok (.XPrint c, r1)
        else .error ("Unknown special ftn - " ++ first.tname)
      | .Identifier => .ok (.GetVar first.tname, rest)
      | .Begin => .error "Invalid expression containing begin"
      | .End => .error "Invalid expression containing end"
      | .CEnd => .error "Invalid expression containing end"
      | .If => make_conditional (make_code budget) rest
      | .Then => .error "Invalid expression containing then"
      | .Else => .error "Invalid expression containing else"
      | .Fi => .error "Invalid expression containing fi"

/-- `Parser::parse` (pcalc_parser.rs lines 66-92): tokenize into the
persistent buffer (clearing it on a lexer error); return the `NoOp`
placeholder while an incomplete function definition is pending; otherwise
build one expression, requiring full consumption of the buffer and
clearing it on every error. -/
def Parser.parse (buffer : List Token) (expr : String) : Except String Code × List Token :=
  match tokenizeInto buffer (split_whitespace expr) with
  | (.error e, _) => (.error e, [])
  | (.ok _, buf1) =>
    if starts_with buf1 .Defun && !ends_with buf1 .End then
      (.ok .NoOp, buf1)
    else
      match make_code (buf1.length + 1) buf1 with
      | .error e => (.error e, [])
      | .ok (code, rest) =>
        if !rest.isEmpty then
          (.error ("Invalid expression - \x27" ++ expr ++ "\x27"), [])
        else (.ok code, rest)

/-! ## Association-list table lemmas -/

theorem lookupKey_append_self {α : Type} (t : List (String × α)) (name : String) (v : α)
    (h : containsKey t name = false) : lookupKey (t ++ [(name, v)]) name = some v := by
  induction t with
  | nil => simp [lookupKey]
  | cons p rest ih =>
    simp only [containsKey, List.any_cons, Bool.or_eq_false_iff, beq_eq_false_iff_ne,
      ne_eq] at h
    simp only [List.cons_append, lookupKey, if_neg h.1]
    exact ih h.2

theorem lookupKey_replaceBinding_self {α : Type} (t : List (String × α)) (name : String) (v : α)
    (h : containsKey t name = true) : lookupKey (replaceBinding t name v) name = some v := by
  induction t with
  | nil => simp [containsKey] at h
  | cons p rest ih =>
    by_cases hk : p.1 = name
    · simp [replaceBinding, hk, lookupKey]
    · simp only [containsKey, List.any_cons, Bool.or_eq_true, beq_iff_eq] at h
      rcases h with h | h
      · exact absurd h hk
      · simp only [replaceBinding, if_neg hk, lookupKey]
        exact ih h

theorem lookupKey_mem {α : Type} (t : List (String × α)) (name : String) (f : α)
    (h : lookupKey t name = some f) : (name, f) ∈ t := by
  induction t with
  | nil => simp [lookupKey] at h
  | cons p rest ih =>
    obtain ⟨k, w⟩ := p
    by_cases hk : k = name
    · subst hk
      simp only [lookupKey, if_pos, Option.some.injEq] at h
      subst h
      exact List.mem_cons_self _ _
    · simp only [lookupKey, if_neg hk] at h
      exact List.mem_cons_of_mem _ (ih h)

/-! ## C10 — DefVar and SetVar return the value just stored -/

/-- C10: Evaluating a variable definition or a variable assignment yields the
assigned value as the own result of the expression: a successful `DefVar`
and a successful `SetVar` both return exactly the value that was just
stored under the name in the variable table of the resulting state. -/
theorem defvar_setvar_return_stored (fuel : Nat) (name : String) (c : Code)
    (st st2 : EvalState) (r : Value) :
    (evalCode (fuel + 1) (.DefVar name c) st = (.ok r, st2) →
      lookupKey st2.env.vars.table name = some r) ∧
    (evalCode (fuel + 1) (.SetVar name c) st = (.ok r, st2) →
      lookupKey st2.env.vars.table name = some r) := by
  constructor
  · intro h
    simp only [evalCode] at h
    rcases hc : evalCode fuel c st with ⟨res, st1⟩
    rw [hc] at h
    cases res with
    | error e => simp at h
    | ok v =>
      simp only at h
      rcases hd : VariableTable.define st1.env.vars name v with e | vt
      · rw [hd] at h; simp at h
      · rw [hd] at h
        simp only [Prod.mk.injEq, Except.ok.injEq] at h
        obtain ⟨hv, hst⟩ := h
        subst hv
        subst hst
        unfold VariableTable.define at hd
        by_cases hcon : containsKey st1.env.vars.table name = true
        · rw [if_pos hcon] at hd; simp at hd
        · rw [if_neg hcon] at hd
          simp only [Except.ok.injEq] at hd
          subst hd
          exact lookupKey_append_self _ _ _ (by simpa using hcon)
  · intro h
    simp only [evalCode] at h
    rcases hc : evalCode fuel c st with ⟨res, st1⟩
    rw [hc] at h
    cases res with
    | error e => simp at h
    | ok v =>
      simp only at h
      rcases hd : VariableTable.set st1.env.vars name v with e | vt
      · rw [hd] at h; simp at h
      · rw [hd] at h
        simp only [Prod.mk.injEq, Except.ok.injEq] at h
        obtain ⟨hv, hst⟩ := h
        subst hv
        subst hst
        unfold VariableTable.set at hd
        by_cases hcon : containsKey st1.env.vars.table name = true
        · rw [if_pos hcon] at hd
          simp only [Except.ok.injEq] at hd
          subst hd
          exact lookupKey_replaceBinding_self _ _ _ hcon
        · rw [if_neg hcon] at hd; simp at hd

/-- Witness for C10 at `var x 5` and `= x 10` style inputs. -/
theorem defvar_setvar_return_stored_witness :
    lookupKey ((evalCode 2 (.DefVar "x" (.Literal (.num 5)))
        ⟨Environment.new, []⟩).2.env.vars.table) "x" = some (.num 5) ∧
    lookupKey ((evalCode 2 (.SetVar "x" (.Literal (.num 10)))
        ⟨⟨⟨[("x", .num 5)]⟩, FunctionTable.new⟩, []⟩).2.env.vars.table) "x" = some (.num 10) := by
  constructor
  · exact (defvar_setvar_return_stored 1 "x" (.Literal (.num 5)) ⟨Environment.new, []⟩
      ⟨⟨⟨[("x", .num 5)]⟩, FunctionTable.new⟩, []⟩ (.num 5)).1 (by rfl)
  · exact (defvar_setvar_return_stored 1 "x" (.Literal (.num 10))
      ⟨⟨⟨[("x", .num 5)]⟩, FunctionTable.new⟩, []⟩
      ⟨⟨⟨[("x", .num 10)]⟩, FunctionTable.new⟩, []⟩ (.num 10)).2 (by rfl)

/-! ## Recursion-check characterisations and FunctionTable.define lemmas -/

theorem check_self_error_of_mem (name : String) (f : Function)
    (h : name ∈ call_names f.body) :
    check_self_recursive name f = .error (.self_recursive name) := by
  unfold check_self_recursive
  rw [if_pos]
  apply List.length_pos.mpr
  intro hnil
  have hm : name ∈ (call_names f.body).filter (fun n => n == name) :=
    List.mem_filter.mpr ⟨h, by simp⟩
  simp [hnil] at hm

theorem check_self_ok_iff (name : String) (f : Function) :
    check_self_recursive name f = .ok () ↔ name ∉ call_names f.body := by
  constructor
  · intro h hmem
    rw [check_self_error_of_mem name f hmem] at h
    exact Except.noConfusion h
  · intro hmem
    unfold check_self_recursive
    rw [if_neg]
    simp only [not_lt, Nat.le_zero, List.length_eq_zero]
    apply List.filter_eq_nil_iff.mpr
    intro a ha
    simp only [beq_iff_eq]
    intro heq
    exact hmem (heq ▸ ha)

theorem lookupKey_replaceBinding_other {α : Type} (t : List (String × α))
    (name m : String) (v : α) (h : m ≠ name) :
    lookupKey (replaceBinding t name v) m = lookupKey t m := by
  induction t with
  | nil => simp [replaceBinding]
  | cons p rest ih =>
    by_cases hk : p.1 = name
    · subst hk
      simp only [replaceBinding, if_pos rfl, lookupKey]
      rw [if_neg (fun hc => h (by rw [← hc])), if_neg (fun hc => h (by rw [← hc]))]
    · simp only [replaceBinding, if_neg hk, lookupKey]
      by_cases hm : p.1 = m
      · rw [if_pos hm, if_pos hm]
      · rw [if_neg hm, if_neg hm]
        exact ih

theorem lookupKey_append_one_other {α : Type} (t : List (String × α))
    (name m : String) (v : α) (h : m ≠ name) :
    lookupKey (t ++ [(name, v)]) m = lookupKey t m := by
  induction t with
  | nil =>
    simp only [List.nil_append, lookupKey]
    rw [if_neg (fun hc => h (by rw [← hc]))]
  | cons p rest ih =>
    simp only [List.cons_append, lookupKey]
    by_cases hm : p.1 = m
    · rw [if_pos hm, if_pos hm]
    · rw [if_neg hm, if_neg hm]
      exact ih

theorem lookup_define_self (T : FunctionTable) (name : String) (f : Function) :
    lookupKey (T.define name f).funcs name = some f := by
  unfold FunctionTable.define
  by_cases hc : containsKey T.funcs name = true
  · rw [if_pos hc]
    exact lookupKey_replaceBinding_self _ _ _ hc
  · rw [if_neg hc]
    exact lookupKey_append_self _ _ _ (by simpa using hc)

theorem lookup_define_other (T : FunctionTable) (name m : String) (f : Function)
    (h : m ≠ name) :
    lookupKey (T.define name f).funcs m = lookupKey T.funcs m := by
  unfold FunctionTable.define
  by_cases hc : containsKey T.funcs name = true
  · rw [if_pos hc]
    exact lookupKey_replaceBinding_other _ _ _ _ h
  · rw [if_neg hc]
    exact lookupKey_append_one_other _ _ _ _ h

/-! ## C4 — a direct self-call in the body is rejected and never installed -/

/-- C4: For every function definition one of whose body expressions is a
call of the name being defined, evaluating the definition fails with the
self-recursive error and leaves the whole state — in particular the
function table — unchanged, so the function is never installed. -/
theorem defun_self_call_rejected (fuel : Nat) (name : String) (params : List String)
    (body : List Code) (st : EvalState) (h : name ∈ call_names body) :
    evalCode (fuel + 1) (.Defun name params body) st =
      (.error ("Self recursive function \x27" ++ name ++ "\x27"), st) := by
  have hchk := check_self_error_of_mem name ⟨params, body⟩ h
  simp [evalCode, hchk, CheckError.message]

/-- Witness for C4: `def foo begin call foo cend end`. -/
theorem defun_self_call_rejected_witness :
    evalCode 1 (.Defun "foo" [] [.Funcall "foo" []]) ⟨Environment.new, []⟩ =
      (.error "Self recursive function \x27foo\x27", ⟨Environment.new, []⟩) :=
  defun_self_call_rejected 0 "foo" [] [.Funcall "foo" []] ⟨Environment.new, []⟩ (by decide)

/-! ## C6 — function definition is atomic on the function table -/

/-- C6: Evaluating a function definition is atomic with respect to the
function table: every error outcome leaves the state unchanged; when both
recursion checks pass the function is installed unconditionally and the
definition evaluates to boolean-true; installation overwrites any prior
binding of the same name and leaves every other name untouched. -/
theorem defun_atomic_install (fuel : Nat) (name : String) (params : List String)
    (body : List Code) (st : EvalState) :
    (∀ e st2, evalCode (fuel + 1) (.Defun name params body) st = (.error e, st2) → st2 = st) ∧
    (check_self_recursive name ⟨params, body⟩ = .ok () →
      check_cross_recursive name ⟨params, body⟩ st.env.funcs = .ok () →
      evalCode (fuel + 1) (.Defun name params body) st =
        (.ok (.bool true),
         { st with env := { st.env with funcs := st.env.funcs.define name ⟨params, body⟩ } })) ∧
    (lookupKey (st.env.funcs.define name ⟨params, body⟩).funcs name = some ⟨params, body⟩) ∧
    (∀ m, m ≠ name →
      lookupKey (st.env.funcs.define name ⟨params, body⟩).funcs m =
        lookupKey st.env.funcs.funcs m) := by
  refine ⟨?_, ?_, lookup_define_self _ _ _, fun m hm => lookup_define_other _ _ _ _ hm⟩
  · intro e st2 h
    simp only [evalCode] at h
    rcases hs : check_self_recursive name ⟨params, body⟩ with e1 | u
    · rw [hs] at h
      simp only [Prod.mk.injEq] at h
      exact h.2.symm
    · rw [hs] at h
      rcases hc : check_cross_recursive name ⟨params, body⟩ st.env.funcs with e2 | u2
      · rw [hc] at h
        simp only [Prod.mk.injEq] at h
        exact h.2.symm
      · rw [hc] at h
        simp at h
  · intro hs hc
    simp [evalCode, hs, hc]

/-- Witness for C6: installing `def id x begin x end` over an empty table. -/
theorem defun_atomic_install_witness :
    evalCode 1 (.Defun "idf" ["x"] [.GetVar "x"]) ⟨Environment.new, []⟩ =
      (.ok (.bool true),
       ⟨⟨VariableTable.new, ⟨[("idf", ⟨["x"], [.GetVar "x"]⟩)]⟩⟩, []⟩) :=
  (defun_atomic_install 0 "idf" ["x"] [.GetVar "x"] ⟨Environment.new, []⟩).2.1
    (by rfl) (by rfl)

/-! ## C5 — cross-recursive definitions are rejected, name stays absent -/

/-- C5: With `bar` already defined to call `foo`, defining `foo` to call
`bar` fails with the cross-recursive error and the state is unchanged, so
`foo` stays absent from the function table; likewise for the three-hop
chain `foo` to `bar` to `tar` back to `foo`, where the traversal reports
the intermediate `tar`. -/
theorem defun_cross_recursion_rejected_concrete :
    (evalCode 1 (.Defun "foo" [] [.Funcall "bar" []])
        ⟨⟨VariableTable.new, ⟨[("bar", ⟨[], [.Funcall "foo" []]⟩)]⟩⟩, []⟩ =
      (.error "Cross recursive functions \x27foo\x27 and \x27bar\x27",
       ⟨⟨VariableTable.new, ⟨[("bar", ⟨[], [.Funcall "foo" []]⟩)]⟩⟩, []⟩)) ∧
    lookupKey (⟨[("bar", ⟨[], [.Funcall "foo" []]⟩)]⟩ : FunctionTable).funcs "foo" = none ∧
    (evalCode 1 (.Defun "foo" [] [.Funcall "bar" []])
        ⟨⟨VariableTable.new,
          ⟨[("bar", ⟨[], [.Funcall "tar" []]⟩), ("tar", ⟨[], [.Funcall "foo" []]⟩)]⟩⟩, []⟩ =
      (.error "Cross recursive functions \x27foo\x27 and \x27tar\x27",
       ⟨⟨VariableTable.new,
         ⟨[("bar", ⟨[], [.Funcall "tar" []]⟩), ("tar", ⟨[], [.Funcall "foo" []]⟩)]⟩⟩, []⟩)) ∧
    lookupKey (⟨[("bar", ⟨[], [.Funcall "tar" []]⟩),
                 ("tar", ⟨[], [.Funcall "foo" []]⟩)]⟩ : FunctionTable).funcs "foo" = none :=
  ⟨rfl, rfl, rfl, rfl⟩

/-! ## C1 — the callee environment has a fresh EMPTY function table (bug) -/

/-- C1 (code bug witness): with `g` and `f` both installed, where the body
of `f` is exactly `call g cend`, calling `f` fails with an unknown-function
error for `g`.  `Function::eval` builds the callee environment with
`Default::default()` — a fresh environment whose function table is new and
empty — instead of `Environment::with_parent_funcs`, so the callee sees no
functions at all, contradicting the spec, the help examples and the
integration tests (tests/test_pcalc.rs `test_pcalc_funcalls`). -/
theorem funcall_callee_empty_function_table :
    evalCode 2 (.Funcall "f" [])
      ⟨⟨VariableTable.new,
        ⟨[("g", ⟨[], [.Literal (.num 1)]⟩), ("f", ⟨[], [.Funcall "g" []]⟩)]⟩⟩, []⟩ =
      (.error "Unknown function \x27g\x27",
       ⟨⟨VariableTable.new,
         ⟨[("g", ⟨[], [.Literal (.num 1)]⟩), ("f", ⟨[], [.Funcall "g" []]⟩)]⟩⟩, []⟩) := rfl

/-! ## C2 — the conditional coerces its condition; branches short-circuit -/

/-- C2 (counterexample to the claim as stated): a numeric condition is NOT
an evaluation error — `Conditional::eval` coerces it with the total
`as_bool`, so `if 5 ? 2 fi`-style code evaluates the taken branch. -/
theorem conditional_numeric_condition_no_error :
    evalCode 2 (.Conditional (.Literal (.num 5)) (.Literal (.num 2)) (.Literal (.bool false)))
      ⟨Environment.new, []⟩ = (.ok (.num 2), ⟨Environment.new, []⟩) := rfl

/-- C2 (amended): evaluating a Conditional first evaluates the condition and
coerces the value to a boolean with `as_bool` (a boolean is taken as
itself, a number by the nonzero test — numeric conditions are not an
error).  Exactly one branch is then evaluated: when the coerced condition
is true the result is that of the true branch, independent of the false
branch (so the untaken branch and its side effects never run), and
symmetrically for false; in the one-armed form a false condition yields
boolean-false. -/
theorem conditional_coerces_and_short_circuits (fuel : Nat) (cond tc fc tc2 fc2 : Code)
    (st st1 : EvalState) (v : Value) (h : evalCode fuel cond st = (.ok v, st1)) :
    (v.as_bool = true →
      evalCode (fuel + 1) (.Conditional cond tc fc) st = evalCode fuel tc st1 ∧
      evalCode (fuel + 1) (.Conditional cond tc fc) st =
        evalCode (fuel + 1) (.Conditional cond tc fc2) st) ∧
    (v.as_bool = false →
      evalCode (fuel + 1) (.Conditional cond tc fc) st = evalCode fuel fc st1 ∧
      evalCode (fuel + 1) (.Conditional cond tc fc) st =
        evalCode (fuel + 1) (.Conditional cond tc2 fc) st) ∧
    (v.as_bool = false →
      evalCode (fuel + 1) (Conditional.when cond tc) st = (.ok (.bool false), st1)) := by
  have hstep : ∀ (a b : Code),
      evalCode (fuel + 1) (.Conditional cond a b) st =
        if v.as_bool then evalCode fuel a st1 else evalCode fuel b st1 := by
    intro a b
    have hdef : evalCode (fuel + 1) (.Conditional cond a b) st =
        match evalCode fuel cond st with
        | (.error e, st2) => (.error e, st2)
        | (.ok w, st2) => if w.as_bool then evalCode fuel a st2 else evalCode fuel b st2 := by
      cases fuel <;> rfl
    rw [hdef, h]
  have hfuel : fuel ≠ 0 := by
    intro h0
    subst h0
    simp [evalCode] at h
  obtain ⟨fl, rfl⟩ : ∃ fl, fuel = fl + 1 := ⟨fuel - 1, by omega⟩
  refine ⟨fun hb => ⟨?_, ?_⟩, fun hb => ⟨?_, ?_⟩, fun hb => ?_⟩
  · rw [hstep, if_pos hb]
  · rw [hstep, hstep]
    simp [hb]
  · rw [hstep, if_neg (by simp [hb])]
  · rw [hstep, hstep]
    simp [hb]
  · unfold Conditional.when
    rw [hstep, if_neg (by simp [hb])]
    rfl

/-- Witness for C2 amended, at `if true ? 1 : 2 fi` and `if false ? 1 fi`. -/
theorem conditional_coerces_witness :
    evalCode 2 (.Conditional (.Literal (.bool true)) (.Literal (.num 1)) (.Literal (.num 2)))
        ⟨Environment.new, []⟩ =
      evalCode 1 (.Literal (.num 1)) ⟨Environment.new, []⟩ ∧
    evalCode 2 (Conditional.when (.Literal (.bool false)) (.Literal (.num 1)))
        ⟨Environment.new, []⟩ = (.ok (.bool false), ⟨Environment.new, []⟩) := by
  constructor
  · exact ((conditional_coerces_and_short_circuits 1 (.Literal (.bool true))
      (.Literal (.num 1)) (.Literal (.num 2)) .NoOp .NoOp
      ⟨Environment.new, []⟩ ⟨Environment.new, []⟩ (.bool true) (by rfl)).1 (by rfl)).1
  · exact (conditional_coerces_and_short_circuits 1 (.Literal (.bool false))
      (.Literal (.num 1)) .NoOp .NoOp .NoOp
      ⟨Environment.new, []⟩ ⟨Environment.new, []⟩ (.bool false) (by rfl)).2.2 (by rfl)

/-! ## C7 — operator evaluation order and typing -/

/-- C7 (counterexample to the claim as stated): comparison operators do NOT
fail on operands of different kinds — `== 1 true` evaluates to
boolean-false (mixed tags compare unequal) — and logical operators do NOT
fail whenever an operand is non-boolean — `and false 1` short-circuits on
the false left operand and evaluates to boolean-false without ever
converting the numeric right operand. -/
theorem operators_mixed_kind_counterexample :
    evalCode 2 (.BinaryOp .equal (.Literal (.num 1)) (.Literal (.bool true)))
        ⟨Environment.new, []⟩ = (.ok (.bool false), ⟨Environment.new, []⟩) ∧
    evalCode 2 (.BinaryOp .logical_and (.Literal (.bool false)) (.Literal (.num 1)))
        ⟨Environment.new, []⟩ = (.ok (.bool false), ⟨Environment.new, []⟩) :=
  ⟨rfl, rfl⟩

/-- C7 (amended): binary and unary operators evaluate their operands
left-to-right (a left-operand error propagates with its state and the right
operand is never evaluated; after both operands succeed the bound native
function is applied).  Arithmetic operators and max/min fail unless both
operands are numbers.  Logical operators fail when the left operand is not
boolean, and when the right operand is reached (left is true for `and`,
false for `or`) and is not boolean; but `and` with a false left operand and
`or` with a true left operand short-circuit to a result without checking
the right operand.  Comparison operators never fail: operands of different
kinds compare not-equal (`==` false, `!=` true) and every ordering
comparison on mixed kinds is false.  In particular `+ 5 true` and `and 1 0`
fail with type errors while `== 1 1` and `!= 1 2` evaluate to true. -/
theorem operators_typing_amended (fuel : Nat) (op : BinaryFtn) (uop : UnaryFtn)
    (l r : Code) (st : EvalState) :
    ((∀ e st1, evalCode fuel l st = (.error e, st1) →
        evalCode (fuel + 1) (.BinaryOp op l r) st = (.error e, st1) ∧
        evalCode (fuel + 1) (.UnaryOp uop l) st = (.error e, st1)) ∧
     (∀ v st1 e st2, evalCode fuel l st = (.ok v, st1) →
        evalCode fuel r st1 = (.error e, st2) →
        evalCode (fuel + 1) (.BinaryOp op l r) st = (.error e, st2)) ∧
     (∀ v st1 w st2, evalCode fuel l st = (.ok v, st1) →
        evalCode fuel r st1 = (.ok w, st2) →
        evalCode (fuel + 1) (.BinaryOp op l r) st = (applyBinary op v w, st2))) ∧
    (op ∈ [BinaryFtn.add, .subtract, .multiply, .divide,
           .remainder, .power, .maximum, .minimum] →
      (∀ v w : Value, (v.is_num && w.is_num) = false →
        ∃ e, applyBinary op v w = .error e) ∧
      (∀ a b : ℚ, ∃ q, applyBinary op (.num a) (.num b) = .ok (.num q))) ∧
    (op ∈ [BinaryFtn.equal, .not_equal, .less, .less_equal,
           .greater, .greater_equal] →
      ∀ v w : Value, ∃ b, applyBinary op v w = .ok (.bool b)) ∧
    (∀ v w : Value, v.is_bool = false →
      (∃ e, applyBinary .logical_and v w = .error e) ∧
      (∃ e, applyBinary .logical_or v w = .error e)) ∧
    (∀ w : Value, applyBinary .logical_and (.bool false) w = .ok (.bool false) ∧
      applyBinary .logical_or (.bool true) w = .ok (.bool true)) ∧
    (∀ w : Value, w.is_bool = false →
      (∃ e, applyBinary .logical_and (.bool true) w = .error e) ∧
      (∃ e, applyBinary .logical_or (.bool false) w = .error e)) ∧
    (∀ v w : Value, v.is_num ≠ w.is_num →
      applyBinary .equal v w = .ok (.bool false) ∧
      applyBinary .not_equal v w = .ok (.bool true) ∧
      applyBinary .less v w = .ok (.bool false) ∧
      applyBinary .less_equal v w = .ok (.bool false) ∧
      applyBinary .greater v w = .ok (.bool false) ∧
      applyBinary .greater_equal v w = .ok (.bool false)) ∧
    (applyBinary .add (.num 5) (.bool true) = .error "true not a number" ∧
     applyBinary .logical_and (.num 1) (.num 0) = .error "1 not a boolean" ∧
     applyBinary .equal (.num 1) (.num 1) = .ok (.bool true) ∧
     applyBinary .not_equal (.num 1) (.num 2) = .ok (.bool true)) := by
  refine ⟨⟨?_, ?_, ?_⟩, ?_, ?_, ?_, ?_, ?_, ?_, ?_⟩
  · intro e st1 h
    have hb : evalCode (fuel + 1) (.BinaryOp op l r) st =
        match evalCode fuel l st with
        | (.error e, st') => (.error e, st')
        | (.ok lv, st') =>
          match evalCode fuel r st' with
          | (.error e, st'') => (.error e, st'')
          | (.ok rv, st'') => (applyBinary op lv rv, st'') := by
      cases fuel <;> rfl
    have hu : evalCode (fuel + 1) (.UnaryOp uop l) st =
        match evalCode fuel l st with
        | (.error e, st') => (.error e, st')
        | (.ok v, st') => (applyUnary uop v, st') := by
      cases fuel <;> rfl
    rw [hb, hu, h]
    exact ⟨rfl, rfl⟩
  · intro v st1 e st2 h1 h2
    have hb : evalCode (fuel + 1) (.BinaryOp op l r) st =
        match evalCode fuel l st with
        | (.error e, st') => (.error e, st')
        | (.ok lv, st') =>
          match evalCode fuel r st' with
          | (.error e, st'') => (.error e, st'')
          | (.ok rv, st'') => (applyBinary op lv rv, st'') := by
      cases fuel <;> rfl
    rw [hb, h1]
    simp only
    rw [h2]
  · intro v st1 w st2 h1 h2
    have hb : evalCode (fuel + 1) (.BinaryOp op l r) st =
        match evalCode fuel l st with
        | (.error e, st') => (.error e, st')
        | (.ok lv, st') =>
          match evalCode fuel r st' with
          | (.error e, st'') => (.error e, st'')
          | (.ok rv, st'') => (applyBinary op lv rv, st'') := by
      cases fuel <;> rfl
    rw [hb, h1]
    simp only
    rw [h2]
  · intro hop
    constructor
    · intro v w hvw
      fin_cases hop <;> cases v <;> cases w <;>
        simp_all [applyBinary, numericBinOp, Value.to_num, Value.is_num] <;>
        exact ⟨_, rfl⟩
    · intro a b
      fin_cases hop <;> exact ⟨_, rfl⟩
  · intro hop v w
    fin_cases hop <;> exact ⟨_, rfl⟩
  · intro v w hv
    cases v <;> simp_all [Value.is_bool] <;> exact ⟨⟨_, rfl⟩, ⟨_, rfl⟩⟩
  · intro w
    exact ⟨rfl, rfl⟩
  · intro w hw
    cases w <;> simp_all [Value.is_bool] <;> exact ⟨⟨_, rfl⟩, ⟨_, rfl⟩⟩
  · intro v w hvw
    cases v <;> cases w <;> simp_all [Value.is_num] <;>
      simp [applyBinary, Value.eq, Value.ltb, Value.leb, Value.gtb, Value.geb, Value.cmp]
  · exact ⟨rfl, rfl, by simp [applyBinary, Value.eq], by simp [applyBinary, Value.eq]⟩

/-- Witness for C7 amended, at `+ 5 true` (left operand evaluated first and
successfully, right operand a literal). -/
theorem operators_typing_witness :
    evalCode 2 (.BinaryOp .add (.Literal (.num 5)) (.Literal (.bool true)))
        ⟨Environment.new, []⟩ = (.error "true not a number", ⟨Environment.new, []⟩) ∧
    (∃ e, applyBinary .add (.num 5) (.bool true) = .error e) := by
  constructor
  · have := (operators_typing_amended 1 .add .negate (.Literal (.num 5))
      (.Literal (.bool true)) ⟨Environment.new, []⟩).1.2.2
      (.num 5) ⟨Environment.new, []⟩ (.bool true) ⟨Environment.new, []⟩ (by rfl) (by rfl)
    rw [this]
    rfl
  · exact ((operators_typing_amended 1 .add .negate .NoOp .NoOp
      ⟨Environment.new, []⟩).2.1 (by decide)).1 (.num 5) (.bool true) (by decide)

/-! ## C8 — function invocation semantics -/

theorem evalCode_funcall_step (fuel : Nat) (name : String) (args : List Code)
    (st : EvalState) :
    evalCode (fuel + 1) (.Funcall name args) st =
      match FunctionTable.get st.env.funcs name with
      | .error e => (.error e, st)
      | .ok func => Function.evalWith (evalCode fuel) func st args := by
  cases fuel <;> rfl

theorem containsKey_append_single {α : Type} (t : List (String × α)) (p q : String) (v : α) :
    containsKey (t ++ [(p, v)]) q = (containsKey t q || p == q) := by
  simp [containsKey, List.any_append]

theorem evalBindWith_zip (ev : Code → EvalState → Except String Value × EvalState)
    (hev : ∀ v stx, ev (.Literal v) stx = (.ok v, stx)) :
    ∀ (ps : List String) (vs : List Value) (st : EvalState) (acc : VariableTable),
      ps.length = vs.length → ps.Nodup →
      (∀ p ∈ ps, containsKey acc.table p = false) →
      evalBindWith ev ps (vs.map .Literal) st acc = (.ok ⟨acc.table ++ ps.zip vs⟩, st) := by
  intro ps
  induction ps with
  | nil =>
    intro vs st acc hlen _ _
    cases vs with
    | nil => simp [evalBindWith]
    | cons v vs => simp at hlen
  | cons p ps ih =>
    intro vs st acc hlen hnodup hacc
    cases vs with
    | nil => simp at hlen
    | cons v vs =>
      simp only [List.map_cons, evalBindWith, hev]
      have hdef : acc.define p v = .ok ⟨acc.table ++ [(p, v)]⟩ := by
        unfold VariableTable.define
        rw [if_neg]
        simp [hacc p (List.mem_cons_self p ps)]
      rw [hdef]
      have hrest : ∀ q ∈ ps, containsKey (acc.table ++ [(p, v)]) q = false := by
        intro q hq
        rw [containsKey_append_single]
        have h1 := hacc q (List.mem_cons_of_mem _ hq)
        have h2 : p ≠ q := fun hpq => (List.nodup_cons.mp hnodup).1 (hpq ▸ hq)
        simp [h1, h2]
      have hstep := ih vs st ⟨acc.table ++ [(p, v)]⟩
        (by simpa using hlen) hnodup.of_cons hrest
      show evalBindWith ev ps (vs.map .Literal) st ⟨acc.table ++ [(p, v)]⟩ = _
      rw [hstep]
      simp [List.zip_cons_cons, List.append_assoc]

theorem evalSeqWith_append_last (ev : Code → EvalState → Except String Value × EvalState) :
    ∀ (body : List Code) (elast : Code) (st0 st1 : EvalState) (init v1 : Value),
      evalSeqWith ev body st0 init = (.ok v1, st1) →
      evalSeqWith ev (body ++ [elast]) st0 init = ev elast st1 := by
  intro body
  induction body with
  | nil =>
    intro elast st0 st1 init v1 h
    simp only [evalSeqWith, Prod.mk.injEq, Except.ok.injEq] at h
    obtain ⟨h1, h2⟩ := h
    subst h2
    simp only [List.nil_append, evalSeqWith]
    rcases he : ev elast st0 with ⟨r, st2⟩
    cases r <;> simp [evalSeqWith]
  | cons e rest ih =>
    intro elast st0 st1 init v1 h
    simp only [evalSeqWith] at h ⊢
    rcases he : ev e st0 with ⟨r, st2⟩
    rw [he] at h
    cases r with
    | error err => simp at h
    | ok v => exact ih elast st2 st1 v v1 h

/-- C8: For every function invocation: calling a name absent from the
function table fails with the unknown-function error; with the function
found, an argument count different from the parameter count fails with the
arguments-length error before any argument is evaluated or bound (the state
is returned untouched); an empty-bodied nullary function yields number 0;
on success each evaluated argument value is bound to its parameter in a new
variable table (exactly the parameter/argument zip, alongside the fresh
empty function table of this snapshot), the body expressions are evaluated
in order in that table and the caller environment is restored afterwards;
and the sequential body evaluation makes the result of a nonempty body the
value of its last expression. -/
theorem funcall_semantics (fuel : Nat) (name : String) (st : EvalState) :
    (∀ args, lookupKey st.env.funcs.funcs name = none →
      evalCode (fuel + 1) (.Funcall name args) st =
        (.error ("Unknown function \x27" ++ name ++ "\x27"), st)) ∧
    (∀ args f, lookupKey st.env.funcs.funcs name = some f →
      args.length ≠ f.params.length →
      evalCode (fuel + 1) (.Funcall name args) st =
        (.error "Invalid arguments length", st)) ∧
    (lookupKey st.env.funcs.funcs name = some ⟨[], []⟩ →
      evalCode (fuel + 1) (.Funcall name []) st = (.ok (.num 0), st)) ∧
    (∀ f vs, lookupKey st.env.funcs.funcs name = some f →
      vs.length = f.params.length → f.params.Nodup →
      evalCode (fuel + 2) (.Funcall name (vs.map .Literal)) st =
        ((evalSeqWith (evalCode (fuel + 1)) f.body
            ⟨⟨⟨f.params.zip vs⟩, FunctionTable.new⟩, st.out⟩ (.num 0)).1,
         { env := st.env,
           out := (evalSeqWith (evalCode (fuel + 1)) f.body
             ⟨⟨⟨f.params.zip vs⟩, FunctionTable.new⟩, st.out⟩ (.num 0)).2.out })) ∧
    (∀ (body : List Code) (elast : Code) (st0 st1 : EvalState) (init v1 : Value),
      evalSeqWith (evalCode fuel) body st0 init = (.ok v1, st1) →
      evalSeqWith (evalCode fuel) (body ++ [elast]) st0 init = evalCode fuel elast st1) := by
  refine ⟨?_, ?_, ?_, ?_, fun body elast st0 st1 init v1 h =>
    evalSeqWith_append_last (evalCode fuel) body elast st0 st1 init v1 h⟩
  · intro args h
    rw [evalCode_funcall_step]
    unfold FunctionTable.get
    rw [h]
  · intro args f h hlen
    rw [evalCode_funcall_step]
    unfold FunctionTable.get
    rw [h]
    simp only
    unfold Function.evalWith
    rw [if_pos hlen]
  · intro h
    rw [evalCode_funcall_step]
    unfold FunctionTable.get
    rw [h]
    rfl
  · intro f vs h hlen hnodup
    rw [evalCode_funcall_step]
    unfold FunctionTable.get
    rw [h]
    simp only
    unfold Function.evalWith
    rw [if_neg (by simp [hlen])]
    have hbind := evalBindWith_zip (evalCode (fuel + 1)) (fun v stx => rfl)
      f.params vs st VariableTable.new hlen.symm hnodup (fun p _ => rfl)
    rw [hbind]
    rfl

/-- Witness for C8 at a table holding a nullary empty function and a unary
identity function. -/
theorem funcall_semantics_witness :
    evalCode 1 (.Funcall "absent" [])
        ⟨⟨VariableTable.new, ⟨[("zero", ⟨[], []⟩)]⟩⟩, []⟩ =
      (.error "Unknown function \x27absent\x27",
       ⟨⟨VariableTable.new, ⟨[("zero", ⟨[], []⟩)]⟩⟩, []⟩) ∧
    evalCode 1 (.Funcall "zero" [.Literal (.num 7)])
        ⟨⟨VariableTable.new, ⟨[("zero", ⟨[], []⟩)]⟩⟩, []⟩ =
      (.error "Invalid arguments length",
       ⟨⟨VariableTable.new, ⟨[("zero", ⟨[], []⟩)]⟩⟩, []⟩) ∧
    evalCode 1 (.Funcall "zero" [])
        ⟨⟨VariableTable.new, ⟨[("zero", ⟨[], []⟩)]⟩⟩, []⟩ =
      (.ok (.num 0), ⟨⟨VariableTable.new, ⟨[("zero", ⟨[], []⟩)]⟩⟩, []⟩) := by
  refine ⟨?_, ?_, ?_⟩
  · exact (funcall_semantics 0 "absent"
      ⟨⟨VariableTable.new, ⟨[("zero", ⟨[], []⟩)]⟩⟩, []⟩).1 [] (by rfl)
  · exact (funcall_semantics 0 "zero"
      ⟨⟨VariableTable.new, ⟨[("zero", ⟨[], []⟩)]⟩⟩, []⟩).2.1
      [.Literal (.num 7)] ⟨[], []⟩ (by rfl) (by decide)
  · exact (funcall_semantics 0 "zero"
      ⟨⟨VariableTable.new, ⟨[("zero", ⟨[], []⟩)]⟩⟩, []⟩).2.2.1 (by rfl)

/-! ## C9 — Parser.parse: NoOp placeholder and buffer discipline -/

theorem make_literal_shape (tname : String) (c : Code) (h : make_literal tname = .ok c) :
    ∃ v, c = .Literal v := by
  unfold make_literal at h
  split at h
  · exact ⟨_, (Except.ok.injEq _ _).mp h.symm⟩
  · split at h
    · exact ⟨_, (Except.ok.injEq _ _).mp h.symm⟩
    · split at h
      · exact ⟨_, (Except.ok.injEq _ _).mp h.symm⟩
      · exact Except.noConfusion h

theorem make_const_shape (tname : String) (c : Code) (h : make_const tname = .ok c) :
    ∃ v, c = .Literal v := by
  unfold make_const at h
  split at h
  · exact ⟨_, (Except.ok.injEq _ _).mp h.symm⟩
  · exact Except.noConfusion h

theorem make_function_shape (mk : List Token → Except String (Code × List Token))
    (budget : Nat) (toks : List Token) (c : Code) (rest : List Token)
    (h : make_function mk budget toks = .ok (c, rest)) :
    ∃ n ps body, c = .Defun n ps body := by
  unfold make_function at h
  split at h
  · exact Except.noConfusion h
  · split at h
    · exact Except.noConfusion h
    · split at h
      · exact Except.noConfusion h
      · split at h
        · exact Except.noConfusion h
        · simp only [Except.ok.injEq, Prod.mk.injEq] at h
          exact ⟨_, _, _, h.1.symm⟩

theorem make_funcall_shape (mk : List Token → Except String (Code × List Token))
    (budget : Nat) (toks : List Token) (c : Code) (rest : List Token)
    (h : make_funcall mk budget toks = .ok (c, rest)) :
    ∃ n args, c = .Funcall n args := by
  unfold make_funcall at h
  split at h
  · exact Except.noConfusion h
  · split at h
    · exact Except.noConfusion h
    · simp only [Except.ok.injEq, Prod.mk.injEq] at h
      exact ⟨_, _, h.1.symm⟩

theorem make_conditional_shape (mk : List Token → Except String (Code × List Token))
    (toks : List Token) (c : Code) (rest : List Token)
    (h : make_conditional mk toks = .ok (c, rest)) :
    ∃ a b d, c = .Conditional a b d := by
  unfold make_conditional at h
  split at h
  · exact Except.noConfusion h
  · split at h
    · exact Except.noConfusion h
    · split at h
      · simp only [Conditional.when, Except.ok.injEq, Prod.mk.injEq] at h
        exact ⟨_, _, _, h.1.symm⟩
      · split at h
        · exact Except.noConfusion h
        · simp only [Except.ok.injEq, Prod.mk.injEq] at h
          exact ⟨_, _, _, h.1.symm⟩

/-- `make_code` builds only evaluable nodes: the `NoOp` placeholder can come
out of `Parser::parse` alone, never out of the recursive descent. -/
theorem make_code_not_noop (budget : Nat) (toks : List Token) (c : Code)
    (rest : List Token) (h : make_code budget toks = .ok (c, rest)) : c ≠ .NoOp := by
  cases budget with
  | zero => exact Except.noConfusion h
  | succ b =>
    rcases toks with _ | ⟨first, rest0⟩
    · exact Except.noConfusion h
    · obtain ⟨tt, tn⟩ := first
      cases tt <;> simp only [make_code] at h
      case Literal =>
        split at h
        · exact Except.noConfusion h
        · rename_i c0 heq
          simp only [Except.ok.injEq, Prod.mk.injEq] at h
          obtain ⟨v, hv⟩ := make_literal_shape tn c0 heq
          rw [← h.1, hv]
          exact fun hc => Code.noConfusion hc
      case Const =>
        split at h
        · exact Except.noConfusion h
        · rename_i c0 heq
          simp only [Except.ok.injEq, Prod.mk.injEq] at h
          obtain ⟨v, hv⟩ := make_const_shape tn c0 heq
          rw [← h.1, hv]
          exact fun hc => Code.noConfusion hc
      case Define =>
        split at h
        · exact Except.noConfusion h
        · split at h
          · split at h
            · exact Except.noConfusion h
            · simp only [Except.ok.injEq, Prod.mk.injEq] at h
              rw [← h.1]
              exact fun hc => Code.noConfusion hc
          · exact Except.noConfusion h
      case Assign =>
        split at h
        · exact Except.noConfusion h
        · split at h
          · split at h
            · exact Except.noConfusion h
            · simp only [Except.ok.injEq, Prod.mk.injEq] at h
              rw [← h.1]
              exact fun hc => Code.noConfusion hc
          · exact Except.noConfusion h
      case Defun =>
        obtain ⟨n, ps, body, hc⟩ := make_function_shape _ _ _ _ _ h
        rw [hc]
        exact fun hcc => Code.noConfusion hcc
      case Funcall =>
        obtain ⟨n, args, hc⟩ := make_funcall_shape _ _ _ _ _ h
        rw [hc]
        exact fun hcc => Code.noConfusion hcc
      case BinaryOp =>
        split at h
        · exact Except.noConfusion h
        · split at h
          · exact Except.noConfusion h
          · split at h
            · exact Except.noConfusion h
            · simp only [Except.ok.injEq, Prod.mk.injEq] at h
              rw [← h.1]
              exact fun hc => Code.noConfusion hc
      case UnaryOp =>
        split at h
        · exact Except.noConfusion h
        · split at h
          · exact Except.noConfusion h
          · simp only [Except.ok.injEq, Prod.mk.injEq] at h
            rw [← h.1]
            exact fun hc => Code.noConfusion hc
      case SpecialFtn =>
        split at h
        · split at h
          · exact Except.noConfusion h
          · simp only [Except.ok.injEq, Prod.mk.injEq] at h
            rw [← h.1]
            exact fun hc => Code.noConfusion hc
        · exact Except.noConfusion h
      case Identifier =>
        simp only [Except.ok.injEq, Prod.mk.injEq] at h
        rw [← h.1]
        exact fun hc => Code.noConfusion hc
      case Begin => exact Except.noConfusion h
      case End => exact Except.noConfusion h
      case CEnd => exact Except.noConfusion h
      case If =>
        obtain ⟨a, b2, d, hc⟩ := make_conditional_shape _ _ _ _ h
        rw [hc]
        exact fun hcc => Code.noConfusion hcc
      case Then => exact Except.noConfusion h
      case Else => exact Except.noConfusion h
      case Fi => exact Except.noConfusion h

/-- C9: `Parser.parse` returns the non-evaluable `NoOp` placeholder exactly
when the token buffer (after a successful tokenize) begins with the
function-definition keyword and does not yet end with the closing keyword —
and then the buffer is retained for further lines.  Otherwise it builds one
expression with the recursive descent and, when any tokens remain
unconsumed, fails with the invalid-expression error; after any lexer or
parser error the token buffer is left empty, so subsequent `parse` calls
behave as on a fresh parser. -/
theorem parse_noop_and_buffer_discipline (buffer : List Token) (expr : String) :
    ((Parser.parse buffer expr).1 = .ok .NoOp ↔
      (∃ buf1, tokenizeInto buffer (split_whitespace expr) = (.ok (), buf1) ∧
        starts_with buf1 .Defun = true ∧ ends_with buf1 .End = false)) ∧
    (∀ buf1, tokenizeInto buffer (split_whitespace expr) = (.ok (), buf1) →
      starts_with buf1 .Defun = true → ends_with buf1 .End = false →
      Parser.parse buffer expr = (.ok .NoOp, buf1)) ∧
    (∀ e, (Parser.parse buffer expr).1 = .error e → (Parser.parse buffer expr).2 = []) ∧
    (∀ buf1 code rest,
      tokenizeInto buffer (split_whitespace expr) = (.ok (), buf1) →
      (starts_with buf1 .Defun = false ∨ ends_with buf1 .End = true) →
      make_code (buf1.length + 1) buf1 = .ok (code, rest) →
      (rest = [] → Parser.parse buffer expr = (.ok code, [])) ∧
      (rest ≠ [] → Parser.parse buffer expr =
        (.error ("Invalid expression - \x27" ++ expr ++ "\x27"), []))) := by
  rcases ht : tokenizeInto buffer (split_whitespace expr) with ⟨tr, buf⟩
  cases tr with
  | error e0 =>
    have hP : Parser.parse buffer expr = (.error e0, []) := by
      simp [Parser.parse, ht]
    refine ⟨⟨fun hL => ?_, fun hR => ?_⟩, fun buf1 hx => ?_, fun e he => ?_,
      fun buf1 code rest hx => ?_⟩
    · rw [hP] at hL
      exact Except.noConfusion hL
    · obtain ⟨buf1, hx, _, _⟩ := hR
      simp at hx
    · simp at hx
    · rw [hP]
    · simp at hx
  | ok u =>
    cases u
    by_cases hcond : (starts_with buf .Defun && !ends_with buf .End) = true
    · have hPn : Parser.parse buffer expr = (.ok .NoOp, buf) := by
        simp [Parser.parse, ht, hcond]
      obtain ⟨hs, he⟩ := Bool.and_eq_true_iff.mp hcond
      refine ⟨⟨fun _ => ⟨buf, rfl, hs, by simpa using he⟩, fun _ => by rw [hPn]⟩,
        fun buf1 hx _ _ => ?_, fun e hE => ?_, fun buf1 code rest hx hnc _ => ?_⟩
      · have hbb : buf = buf1 := ((Prod.mk.injEq _ _ _ _).mp hx).2
        subst hbb
        exact hPn
      · rw [hPn] at hE
        exact Except.noConfusion hE
      · have hbb : buf = buf1 := ((Prod.mk.injEq _ _ _ _).mp hx).2
        subst hbb
        rcases hnc with hnc | hnc
        · rw [hs] at hnc
          exact Bool.noConfusion hnc
        · rw [hnc] at he
          simp at he
    · have hcf : (starts_with buf .Defun && !ends_with buf .End) = false := by
        simpa using hcond
      rcases hm : make_code (buf.length + 1) buf with e2 | ⟨code0, rest0⟩
      · have hPe : Parser.parse buffer expr = (.error e2, []) := by
          simp [Parser.parse, ht, hcf, hm]
        refine ⟨⟨fun hL => ?_, fun hR => ?_⟩, fun buf1 hx hs he => ?_,
          fun e hE => by rw [hPe], fun buf1 code rest hx hnc hmk => ?_⟩
        · rw [hPe] at hL
          exact Except.noConfusion hL
        · obtain ⟨buf1, hx, hs, he⟩ := hR
          have hbb : buf = buf1 := ((Prod.mk.injEq _ _ _ _).mp hx).2
          subst hbb
          exact absurd (by simp [hs, he]) hcond
        · have hbb : buf = buf1 := ((Prod.mk.injEq _ _ _ _).mp hx).2
          subst hbb
          exact absurd (by simp [hs, he]) hcond
        · have hbb : buf = buf1 := ((Prod.mk.injEq _ _ _ _).mp hx).2
          subst hbb
          rw [hm] at hmk
          exact Except.noConfusion hmk
      · by_cases hrest : rest0.isEmpty = true
        · have hrnil : rest0 = [] := List.isEmpty_iff.mp hrest
          have hPo : Parser.parse buffer expr = (.ok code0, rest0) := by
            simp [Parser.parse, ht, hcf, hm, hrest]
          refine ⟨⟨fun hL => ?_, fun hR => ?_⟩, fun buf1 hx hs he => ?_,
            fun e hE => ?_, fun buf1 code rest hx hnc hmk => ?_⟩
          · rw [hPo] at hL
            exact absurd ((Except.ok.injEq _ _).mp hL)
              (make_code_not_noop _ _ _ _ hm)
          · obtain ⟨buf1, hx, hs, he⟩ := hR
            have hbb : buf = buf1 := ((Prod.mk.injEq _ _ _ _).mp hx).2
            subst hbb
            exact absurd (by simp [hs, he]) hcond
          · have hbb : buf = buf1 := ((Prod.mk.injEq _ _ _ _).mp hx).2
            subst hbb
            exact absurd (by simp [hs, he]) hcond
          · rw [hPo] at hE
            exact Except.noConfusion hE
          · have hbb : buf = buf1 := ((Prod.mk.injEq _ _ _ _).mp hx).2
            subst hbb
            rw [hm] at hmk
            obtain ⟨h1, h2⟩ := (Prod.mk.injEq _ _ _ _).mp ((Except.ok.injEq _ _).mp hmk)
            subst h1
            subst h2
            exact ⟨fun hr => by rw [hPo, hrnil], fun hr => absurd hrnil hr⟩
        · have hPi : Parser.parse buffer expr =
              (.error ("Invalid expression - \x27" ++ expr ++ "\x27"), []) := by
            have hrf : rest0.isEmpty = false := by simpa using hrest
            simp [Parser.parse, ht, hcf, hm, hrf]
          refine ⟨⟨fun hL => ?_, fun hR => ?_⟩, fun buf1 hx hs he => ?_,
            fun e hE => by rw [hPi], fun buf1 code rest hx hnc hmk => ?_⟩
          · rw [hPi] at hL
            exact Except.noConfusion hL
          · obtain ⟨buf1, hx, hs, he⟩ := hR
            have hbb : buf = buf1 := ((Prod.mk.injEq _ _ _ _).mp hx).2
            subst hbb
            exact absurd (by simp [hs, he]) hcond
          · have hbb : buf = buf1 := ((Prod.mk.injEq _ _ _ _).mp hx).2
            subst hbb
            exact absurd (by simp [hs, he]) hcond
          · have hbb : buf = buf1 := ((Prod.mk.injEq _ _ _ _).mp hx).2
            subst hbb
            rw [hm] at hmk
            obtain ⟨h1, h2⟩ := (Prod.mk.injEq _ _ _ _).mp ((Except.ok.injEq _ _).mp hmk)
            subst h1
            subst h2
            refine ⟨fun hr => ?_, fun hr => hPi⟩
            rw [hr] at hrest
            simp at hrest

/-- Witness for C9: a pending multi-line definition keeps its buffer, a
leftover-token error clears it. -/
theorem parse_noop_witness :
    Parser.parse [] "def add x y" =
      (.ok .NoOp,
       [⟨.Defun, "def"⟩, ⟨.Identifier, "add"⟩, ⟨.Identifier, "x"⟩, ⟨.Identifier, "y"⟩]) ∧
    (Parser.parse [] "1 2").2 = [] := by
  constructor
  · exact (parse_noop_and_buffer_discipline [] "def add x y").2.1
      [⟨.Defun, "def"⟩, ⟨.Identifier, "add"⟩, ⟨.Identifier, "x"⟩, ⟨.Identifier, "y"⟩]
      (by rfl) (by rfl) (by rfl)
  · exact (parse_noop_and_buffer_discipline [] "1 2").2.2.1
      ("Invalid expression - \x271 2\x27") (by rfl)

/-! ## C3 — the no-recursion invariant of the function table

Reachability "through any chain of calls" follows each stored function's
direct body calls (the `call_names` collection the checker itself uses)
through the current table. -/

/-- One call edge: `a` is defined in the table and its body directly calls
`b`. -/
def callsEdge (tbl : FunctionTable) (a b : String) : Prop :=
  ∃ f, lookupKey tbl.funcs a = some f ∧ b ∈ call_names f.body

/-- The no-recursion invariant: no name can reach itself through a nonempty
chain of call edges of the table. -/
def NoSelfReach (tbl : FunctionTable) : Prop :=
  ∀ n, ¬ Relation.TransGen (callsEdge tbl) n n

/-- Representation wellformedness: no stored function has the empty-string
name (every name in the program comes from a nonempty lexeme; the checker
drops the empty name from its initial worklist, so an empty-named table
entry would be invisible to it). -/
def keys_nonempty (tbl : FunctionTable) : Prop := ∀ p ∈ tbl.funcs, p.1 ≠ ""

/-- Wellformedness of code about to be evaluated: every `Defun` node in it
carries a nonempty name (guaranteed by the parser, whose name tokens are
nonempty lexemes). -/
def wf_defun_names : Code → Bool
  | .NoOp => true
  | .Literal _ => true
  | .GetVar _ => true
  | .DefVar _ c => wf_defun_names c
  | .SetVar _ c => wf_defun_names c
  | .BinaryOp _ l r => wf_defun_names l && wf_defun_names r
  | .UnaryOp _ c => wf_defun_names c
  | .XPrint c => wf_defun_names c
  | .Defun name _ body => name != "" && body.attach.all (fun x => wf_defun_names x.1)
  | .Funcall _ args => args.attach.all (fun x => wf_defun_names x.1)
  | .Conditional c t f => wf_defun_names c && wf_defun_names t && wf_defun_names f
termination_by c => sizeOf c
decreasing_by
  all_goals simp_wf
  all_goals try omega
  all_goals (have h1 := List.sizeOf_lt_of_mem x.2; omega)

theorem mem_setInsert (l : List String) (y x : String) :
    x ∈ setInsert l y ↔ x ∈ l ∨ x = y := by
  unfold setInsert
  by_cases hy : y ∈ l
  · rw [if_pos hy]
    constructor
    · exact fun h => Or.inl h
    · rintro (h | rfl)
      · exact h
      · exact hy
  · rw [if_neg hy]
    simp

theorem nodup_setInsert (l : List String) (y : String) (h : l.Nodup) :
    (setInsert l y).Nodup := by
  unfold setInsert
  by_cases hy : y ∈ l
  · rwa [if_pos hy]
  · rw [if_neg hy]
    refine List.Nodup.append h (List.nodup_singleton y) ?_
    intro a ha hay
    rw [List.mem_singleton] at hay
    subst hay
    exact hy ha

theorem mem_foldl_setInsert (l : List String) :
    ∀ (acc : List String) (x : String),
      x ∈ l.foldl setInsert acc ↔ x ∈ acc ∨ x ∈ l := by
  induction l with
  | nil => intro acc x; simp
  | cons y ys ih =>
    intro acc x
    simp only [List.foldl_cons, ih, mem_setInsert, List.mem_cons]
    tauto

theorem nodup_foldl_setInsert (l : List String) :
    ∀ (acc : List String), acc.Nodup → (l.foldl setInsert acc).Nodup := by
  induction l with
  | nil => intro acc h; simpa
  | cons y ys ih =>
    intro acc h
    exact ih _ (nodup_setInsert acc y h)

theorem mem_setOfList (l : List String) (x : String) : x ∈ setOfList l ↔ x ∈ l := by
  unfold setOfList
  rw [mem_foldl_setInsert]
  simp

theorem nodup_setOfList (l : List String) : (setOfList l).Nodup :=
  nodup_foldl_setInsert l [] List.nodup_nil

theorem mem_initialCalls (name : String) (func : Function) (x : String) :
    x ∈ initialCalls name func ↔
      x ∈ call_names func.body ∧ x ≠ "" ∧ x ≠ name := by
  unfold initialCalls
  rw [mem_setOfList, List.mem_filter]
  simp [and_assoc]

theorem expandCalls_ok_facts (name nm : String) :
    ∀ (cs tv vis r : List String), expandCalls name nm cs tv vis = .ok r →
      (name ∉ cs) ∧
      (∀ x ∈ tv, x ∈ r) ∧
      (∀ x ∈ r, x ∈ tv ∨ x ∈ cs) ∧
      (∀ c ∈ cs, c ∈ vis ∨ c ∈ r) ∧
      (tv.Nodup → (∀ x ∈ tv, x ∉ vis) → r.Nodup ∧ ∀ x ∈ r, x ∉ vis) := by
  intro cs
  induction cs with
  | nil =>
    intro tv vis r h
    simp only [expandCalls, Except.ok.injEq] at h
    subst h
    exact ⟨by simp, fun x hx => hx, fun x hx => Or.inl hx, by simp,
      fun hn hd => ⟨hn, hd⟩⟩
  | cons c cs ih =>
    intro tv vis r h
    simp only [expandCalls] at h
    split at h
    · exact Except.noConfusion h
    · rename_i hcname
      split at h
      · rename_i hcvis
        obtain ⟨h1, h2, h3, h4, h5⟩ := ih tv vis r h
        refine ⟨?_, h2, fun x hx => (h3 x hx).imp_right (List.mem_cons_of_mem c), ?_, h5⟩
        · intro hmem
          rcases List.mem_cons.mp hmem with rfl | hmem
          · exact hcname rfl
          · exact h1 hmem
        · intro d hd
          rcases List.mem_cons.mp hd with rfl | hd
          · exact Or.inl hcvis
          · exact h4 d hd
      · rename_i hcvis
        obtain ⟨h1, h2, h3, h4, h5⟩ := ih (setInsert tv c) vis r h
        refine ⟨?_, fun x hx => h2 x ((mem_setInsert tv c x).mpr (Or.inl hx)), ?_, ?_, ?_⟩
        · intro hmem
          rcases List.mem_cons.mp hmem with rfl | hmem
          · exact hcname rfl
          · exact h1 hmem
        · intro x hx
          rcases h3 x hx with hx2 | hx2
          · rcases (mem_setInsert tv c x).mp hx2 with hx3 | rfl
            · exact Or.inl hx3
            · exact Or.inr (List.mem_cons_self _ _)
          · exact Or.inr (List.mem_cons_of_mem c hx2)
        · intro d hd
          rcases List.mem_cons.mp hd with rfl | hd
          · exact Or.inr (h2 d ((mem_setInsert tv d d).mpr (Or.inr rfl)))
          · exact h4 d hd
        · intro hn hd
          exact h5 (nodup_setInsert tv c hn) (by
            intro x hx
            rcases (mem_setInsert tv c x).mp hx with hx2 | rfl
            · exact hd x hx2
            · exact hcvis)

theorem closed_no_reach (tbl : FunctionTable) (name : String) (S : List String)
    (hS : ∀ v ∈ S, ∀ f, lookupKey tbl.funcs v = some f →
      name ∉ call_names f.body ∧ ∀ c ∈ call_names f.body, c ∈ S) :
    ∀ x ∈ S, ¬ Relation.TransGen (callsEdge tbl) x name := by
  intro x hx h
  revert hx
  induction h using Relation.TransGen.head_induction_on with
  | @base a hr =>
    intro ha
    obtain ⟨f, hf, hmem⟩ := hr
    exact (hS a ha f hf).1 hmem
  | @ih a c hr ht IH =>
    intro ha
    obtain ⟨f, hf, hmem⟩ := hr
    exact IH ((hS a ha f hf).2 c hmem)

theorem crossLoop_ok_sound (tbl : FunctionTable) (name : String) (W : Finset String)
    (hWt : ∀ p ∈ tbl.funcs, ∀ c ∈ call_names p.2.body, c ∈ W) :
    ∀ (gas : Nat) (toVisit visited : List String),
      crossLoop tbl name gas toVisit visited = .ok () →
      toVisit.Nodup →
      (∀ x ∈ toVisit, x ∉ visited) →
      (∀ x ∈ toVisit, x ∈ W) →
      (W.filter (fun x => x ∉ visited)).card ≤ gas →
      (∀ v ∈ visited, ∀ f, lookupKey tbl.funcs v = some f →
        name ∉ call_names f.body ∧
        ∀ c ∈ call_names f.body, c ∈ visited ∨ c ∈ toVisit) →
      ∀ x, x ∈ toVisit ∨ x ∈ visited →
        ¬ Relation.TransGen (callsEdge tbl) x name := by
  intro gas
  induction gas with
  | zero =>
    intro toVisit visited h hnd hdis hsub hcard hclosed x hxm
    cases toVisit with
    | nil =>
      have hx : x ∈ visited := by
        rcases hxm with hxm | hxm
        · exact absurd hxm (List.not_mem_nil x)
        · exact hxm
      refine closed_no_reach tbl name visited ?_ x hx
      intro v hv f hf
      obtain ⟨h1, h2⟩ := hclosed v hv f hf
      refine ⟨h1, fun c hc => ?_⟩
      rcases h2 c hc with hcv | hcv
      · exact hcv
      · exact absurd hcv (List.not_mem_nil c)
    | cons y rest =>
      exfalso
      have hy : y ∈ W.filter (fun x => x ∉ visited) :=
        Finset.mem_filter.mpr ⟨hsub y (List.mem_cons_self y rest),
          by simpa using hdis y (List.mem_cons_self y rest)⟩
      have : 0 < (W.filter (fun x => x ∉ visited)).card := Finset.card_pos.mpr ⟨y, hy⟩
      omega
  | succ gas IH =>
    intro toVisit visited h hnd hdis hsub hcard hclosed x hxm
    cases toVisit with
    | nil =>
      have hx : x ∈ visited := by
        rcases hxm with hxm | hxm
        · exact absurd hxm (List.not_mem_nil x)
        · exact hxm
      refine closed_no_reach tbl name visited ?_ x hx
      intro v hv f hf
      obtain ⟨h1, h2⟩ := hclosed v hv f hf
      refine ⟨h1, fun c hc => ?_⟩
      rcases h2 c hc with hcv | hcv
      · exact hcv
      · exact absurd hcv (List.not_mem_nil c)
    | cons nm rest =>
      simp only [crossLoop] at h
      have hnm_mem : nm ∈ W := hsub nm (List.mem_cons_self nm rest)
      have hnm_nvis : nm ∉ visited := hdis nm (List.mem_cons_self nm rest)
      have hcard' : (W.filter (fun x => x ∉ nm :: visited)).card ≤ gas := by
        have hfe : W.filter (fun x => x ∉ nm :: visited) =
            (W.filter (fun x => x ∉ visited)).erase nm := by
          ext z
          simp only [Finset.mem_filter, Finset.mem_erase, List.mem_cons]
          tauto
        have hnm_f : nm ∈ W.filter (fun x => x ∉ visited) :=
          Finset.mem_filter.mpr ⟨hnm_mem, by simpa using hnm_nvis⟩
        rw [hfe, Finset.card_erase_of_mem hnm_f]
        omega
      have hrest_nd : rest.Nodup := (List.nodup_cons.mp hnd).2
      have hrest_dis : ∀ z ∈ rest, z ∉ nm :: visited := by
        intro z hz
        rw [List.mem_cons]
        push_neg
        exact ⟨fun hzz => (List.nodup_cons.mp hnd).1 (hzz ▸ hz),
          hdis z (List.mem_cons_of_mem nm hz)⟩
      rcases hlk : lookupKey tbl.funcs nm with _ | f
      · rw [hlk] at h
        have h := show crossLoop tbl name gas rest (nm :: visited) = .ok () from h
        have hres := IH rest (nm :: visited) h hrest_nd hrest_dis
          (fun z hz => hsub z (List.mem_cons_of_mem nm hz)) hcard' ?_
        · refine fun hx => hres x ?_ hx
          rcases hxm with hxm | hxm
          · rcases List.mem_cons.mp hxm with rfl | hxm
            · exact Or.inr (List.mem_cons_self x visited)
            · exact Or.inl hxm
          · exact Or.inr (List.mem_cons_of_mem nm hxm)
        · intro v hv f hf
          rcases List.mem_cons.mp hv with rfl | hv
          · rw [hlk] at hf
            exact Option.noConfusion hf
          · obtain ⟨h1, h2⟩ := hclosed v hv f hf
            refine ⟨h1, fun c hc => ?_⟩
            rcases h2 c hc with hcv | hcv
            · exact Or.inl (List.mem_cons_of_mem nm hcv)
            · rcases List.mem_cons.mp hcv with rfl | hcv
              · exact Or.inl (List.mem_cons_self c visited)
              · exact Or.inr hcv
      · rw [hlk] at h
        have h := show (match expandCalls name nm (call_names f.body) rest (nm :: visited) with
            | Except.error e => Except.error e
            | Except.ok tv => crossLoop tbl name gas tv (nm :: visited)) = .ok () from h
        rcases hex : expandCalls name nm (call_names f.body) rest (nm :: visited)
          with e | tv2
        · rw [hex] at h
          exact Except.noConfusion h
        · rw [hex] at h
          obtain ⟨hF1, hF2, hF3, hF4, hF5⟩ :=
            expandCalls_ok_facts name nm (call_names f.body) rest (nm :: visited) tv2 hex
          obtain ⟨htv2_nd, htv2_dis⟩ := hF5 hrest_nd hrest_dis
          have hnm_in_tbl : (nm, f) ∈ tbl.funcs := lookupKey_mem _ _ _ hlk
          have htv2_sub : ∀ z ∈ tv2, z ∈ W := by
            intro z hz
            rcases hF3 z hz with hz2 | hz2
            · exact hsub z (List.mem_cons_of_mem nm hz2)
            · exact hWt (nm, f) hnm_in_tbl z hz2
          have hres := IH tv2 (nm :: visited) h htv2_nd htv2_dis htv2_sub hcard' ?_
          · refine fun hx => hres x ?_ hx
            rcases hxm with hxm | hxm
            · rcases List.mem_cons.mp hxm with rfl | hxm
              · exact Or.inr (List.mem_cons_self x visited)
              · exact Or.inl (hF2 x hxm)
            · exact Or.inr (List.mem_cons_of_mem nm hxm)
          · intro v hv g hg
            rcases List.mem_cons.mp hv with rfl | hv
            · rw [hlk] at hg
              obtain rfl : f = g := Option.some.inj hg
              exact ⟨hF1, hF4⟩
            · obtain ⟨h1, h2⟩ := hclosed v hv g hg
              refine ⟨h1, fun c hc => ?_⟩
              rcases h2 c hc with hcv | hcv
              · exact Or.inl (List.mem_cons_of_mem nm hcv)
              · rcases List.mem_cons.mp hcv with rfl | hcv
                · exact Or.inl (List.mem_cons_self c visited)
                · exact Or.inr (hF2 c hcv)

/-- `check_cross_recursive` passing means no initial call name can reach
`name` through the call edges of the current table. -/
theorem check_cross_ok_no_reach (tbl : FunctionTable) (name : String) (func : Function)
    (h : check_cross_recursive name func tbl = .ok ()) :
    ∀ c ∈ initialCalls name func, ¬ Relation.TransGen (callsEdge tbl) c name := by
  intro c hc
  have hWt : ∀ p ∈ tbl.funcs, ∀ d ∈ call_names p.2.body,
      d ∈ (nameUniverse tbl (initialCalls name func)).toFinset := by
    intro p hp d hd
    rw [List.mem_toFinset]
    unfold nameUniverse
    refine List.mem_append.mpr (Or.inr ?_)
    rw [List.mem_flatten]
    exact ⟨call_names p.2.body, List.mem_map.mpr ⟨p, hp, rfl⟩, hd⟩
  refine crossLoop_ok_sound tbl name
    (nameUniverse tbl (initialCalls name func)).toFinset hWt
    (nameUniverse tbl (initialCalls name func)).length
    (initialCalls name func) [] h (nodup_setOfList _) (by simp) ?_ ?_ ?_ c (Or.inl hc)
  · intro x hx
    rw [List.mem_toFinset]
    unfold nameUniverse
    exact List.mem_append.mpr (Or.inl (List.mem_append.mpr (Or.inl hx)))
  · calc ((nameUniverse tbl (initialCalls name func)).toFinset.filter
          (fun x => x ∉ ([] : List String))).card
        ≤ (nameUniverse tbl (initialCalls name func)).toFinset.card :=
          Finset.card_filter_le _ _
      _ ≤ (nameUniverse tbl (initialCalls name func)).length :=
          List.toFinset_card_le _
  · intro v hv
    exact absurd hv (List.not_mem_nil v)

theorem callsEdge_define_of_ne (tbl : FunctionTable) (name : String) (func : Function)
    (a b : String) (ha : a ≠ name)
    (h : callsEdge (tbl.define name func) a b) : callsEdge tbl a b := by
  obtain ⟨f, hf, hb⟩ := h
  rw [lookup_define_other tbl name a func ha] at hf
  exact ⟨f, hf, hb⟩

theorem callsEdge_define_self (tbl : FunctionTable) (name : String) (func : Function)
    (b : String) (h : callsEdge (tbl.define name func) name b) :
    b ∈ call_names func.body := by
  obtain ⟨f, hf, hb⟩ := h
  rw [lookup_define_self tbl name func] at hf
  obtain rfl : func = f := Option.some.inj hf
  exact hb

theorem reach_to_name_transfer (tbl : FunctionTable) (name : String) (func : Function)
    (x : String)
    (h : Relation.ReflTransGen (callsEdge (tbl.define name func)) x name) :
    x = name ∨ Relation.TransGen (callsEdge tbl) x name := by
  induction h using Relation.ReflTransGen.head_induction_on with
  | refl => exact Or.inl rfl
  | head hr hrest IH =>
    rename_i a c
    by_cases ha : a = name
    · exact Or.inl ha
    · have hedge := callsEdge_define_of_ne tbl name func a c ha hr
      rcases IH with rfl | htg
      · exact Or.inr (Relation.TransGen.single hedge)
      · exact Or.inr (Relation.TransGen.head hedge htg)

theorem define_no_name_cycle (tbl : FunctionTable) (name : String) (func : Function)
    (hkeys : keys_nonempty tbl)
    (hself : name ∉ call_names func.body)
    (hcross : check_cross_recursive name func tbl = .ok ()) :
    ¬ Relation.TransGen (callsEdge (tbl.define name func)) name name := by
  intro h
  obtain ⟨b, hedge, hrest⟩ := (Relation.TransGen.head'_iff).mp h
  have hbcall : b ∈ call_names func.body := callsEdge_define_self tbl name func b hedge
  have hbname : b ≠ name := fun hbn => hself (hbn ▸ hbcall)
  rcases reach_to_name_transfer tbl name func b hrest with rfl | htg
  · exact hbname rfl
  · by_cases hb : b = ""
    · subst hb
      obtain ⟨c, hc, _⟩ := (Relation.TransGen.head'_iff).mp htg
      obtain ⟨f, hf, _⟩ := hc
      exact hkeys ("", f) (lookupKey_mem _ _ _ hf) rfl
    · exact check_cross_ok_no_reach tbl name func hcross b
        ((mem_initialCalls name func b).mpr ⟨hbcall, hb, hbname⟩) htg

theorem transGen_define_split (tbl : FunctionTable) (name : String) (func : Function)
    (x y : String)
    (h : Relation.TransGen (callsEdge (tbl.define name func)) x y) :
    Relation.TransGen (callsEdge tbl) x y ∨
      (Relation.ReflTransGen (callsEdge (tbl.define name func)) x name ∧
       Relation.TransGen (callsEdge (tbl.define name func)) name y) := by
  induction h using Relation.TransGen.head_induction_on with
  | base hr =>
    rename_i a
    by_cases ha : a = name
    · subst ha
      exact Or.inr ⟨Relation.ReflTransGen.refl, Relation.TransGen.single hr⟩
    · exact Or.inl (Relation.TransGen.single (callsEdge_define_of_ne tbl name func _ _ ha hr))
  | ih hr ht IH =>
    rename_i a c
    by_cases ha : a = name
    · subst ha
      exact Or.inr ⟨Relation.ReflTransGen.refl, Relation.TransGen.head hr ht⟩
    · have hedge := callsEdge_define_of_ne tbl name func a c ha hr
      rcases IH with htg | ⟨h1, h2⟩
      · exact Or.inl (Relation.TransGen.head hedge htg)
      · exact Or.inr ⟨Relation.ReflTransGen.head hr h1, h2⟩

theorem NoSelfReach_define (tbl : FunctionTable) (name : String) (func : Function)
    (hkeys : keys_nonempty tbl) (hinv : NoSelfReach tbl)
    (hself : name ∉ call_names func.body)
    (hcross : check_cross_recursive name func tbl = .ok ()) :
    NoSelfReach (tbl.define name func) := by
  intro n h
  by_cases hn : n = name
  · subst hn
    exact define_no_name_cycle tbl n func hkeys hself hcross h
  · rcases transGen_define_split tbl name func n n h with htg | ⟨h1, h2⟩
    · exact hinv n htg
    · exact define_no_name_cycle tbl name func hkeys hself hcross (h2.trans_left h1)

theorem mem_replaceBinding {α : Type} (name : String) (v : α) :
    ∀ (t : List (String × α)), ∀ p ∈ replaceBinding t name v, p.1 = name ∨ p ∈ t := by
  intro t
  induction t with
  | nil => intro p hp; exact absurd hp (List.not_mem_nil p)
  | cons q rest ih =>
    intro p hp
    unfold replaceBinding at hp
    by_cases hq : q.1 = name
    · rw [if_pos hq] at hp
      rcases List.mem_cons.mp hp with rfl | hp
      · exact Or.inl hq
      · exact Or.inr (List.mem_cons_of_mem q hp)
    · rw [if_neg hq] at hp
      rcases List.mem_cons.mp hp with rfl | hp
      · exact Or.inr (List.mem_cons_self q rest)
      · rcases ih p hp with h1 | h1
        · exact Or.inl h1
        · exact Or.inr (List.mem_cons_of_mem q h1)

theorem keys_nonempty_define (tbl : FunctionTable) (name : String) (func : Function)
    (hkeys : keys_nonempty tbl) (hname : name ≠ "") :
    keys_nonempty (tbl.define name func) := by
  intro p hp
  unfold FunctionTable.define at hp
  by_cases hc : containsKey tbl.funcs name = true
  · rw [if_pos hc] at hp
    rcases mem_replaceBinding name func tbl.funcs p hp with h1 | h1
    · rw [h1]; exact hname
    · exact hkeys p h1
  · rw [if_neg hc] at hp
    rcases List.mem_append.mp hp with h1 | h1
    · exact hkeys p h1
    · rw [List.mem_singleton.mp h1]
      exact hname

theorem evalBindWith_preserves
    (ev : Code → EvalState → Except String Value × EvalState) :
    ∀ (args : List Code),
      (∀ a ∈ args, ∀ st r st2, keys_nonempty st.env.funcs → NoSelfReach st.env.funcs →
        ev a st = (r, st2) → keys_nonempty st2.env.funcs ∧ NoSelfReach st2.env.funcs) →
      ∀ (params : List String) (st : EvalState) (acc : VariableTable)
        (r : Except String VariableTable) (st2 : EvalState),
        evalBindWith ev params args st acc = (r, st2) →
        keys_nonempty st.env.funcs → NoSelfReach st.env.funcs →
        keys_nonempty st2.env.funcs ∧ NoSelfReach st2.env.funcs := by
  intro args
  induction args with
  | nil =>
    intro hev params st acc r st2 h hk hn
    cases params with
    | nil =>
      simp only [evalBindWith] at h
      rw [Prod.mk.injEq] at h
      obtain ⟨rfl, rfl⟩ := h
      exact ⟨hk, hn⟩
    | cons p ps =>
      simp only [evalBindWith] at h
      rw [Prod.mk.injEq] at h
      obtain ⟨rfl, rfl⟩ := h
      exact ⟨hk, hn⟩
  | cons a rest ih =>
    intro hev params st acc r st2 h hk hn
    cases params with
    | nil =>
      simp only [evalBindWith] at h
      rw [Prod.mk.injEq] at h
      obtain ⟨rfl, rfl⟩ := h
      exact ⟨hk, hn⟩
    | cons p ps =>
      simp only [evalBindWith] at h
      split at h
      · rename_i e st1 heq
        rw [Prod.mk.injEq] at h
        obtain ⟨rfl, rfl⟩ := h
        exact hev a (List.mem_cons_self a rest) st _ st1 hk hn heq
      · rename_i v st1 heq
        obtain ⟨hk1, hn1⟩ := hev a (List.mem_cons_self a rest) st _ st1 hk hn heq
        split at h
        · rw [Prod.mk.injEq] at h
          obtain ⟨rfl, rfl⟩ := h
          exact ⟨hk1, hn1⟩
        · exact ih (fun b hb => hev b (List.mem_cons_of_mem a hb)) ps st1 _ r st2 h hk1 hn1

/-- C3: evaluation preserves the no-recursion invariant of the function
table: for every code node whose `Defun` names are nonempty lexemes (as the
parser guarantees) and every fuel budget, if before evaluation no name can
reach itself through any chain of call edges of the table (each stored
function's direct body calls followed through the current table) and all
stored names are nonempty, then the same holds of the table after
evaluation, whether it succeeded or failed; the `Defun` step keeps the
invariant because its installed function passed `check_self_recursive`
(no direct self call) and `check_cross_recursive` (no chain back to the
new name). -/
theorem recursion_invariant_preserved :
    ∀ (fuel : Nat) (c : Code) (st : EvalState) (r : Except String Value) (st2 : EvalState),
      wf_defun_names c = true →
      keys_nonempty st.env.funcs → NoSelfReach st.env.funcs →
      evalCode fuel c st = (r, st2) →
      keys_nonempty st2.env.funcs ∧ NoSelfReach st2.env.funcs := by
  intro fuel
  induction fuel with
  | zero =>
    intro c st r st2 hwf hk hn h
    simp only [evalCode] at h
    rw [Prod.mk.injEq] at h
    obtain ⟨rfl, rfl⟩ := h
    exact ⟨hk, hn⟩
  | succ fuel IH =>
    intro c st r st2 hwf hk hn h
    cases c with
    | NoOp =>
      simp only [evalCode] at h
      rw [Prod.mk.injEq] at h
      obtain ⟨rfl, rfl⟩ := h
      exact ⟨hk, hn⟩
    | Literal v =>
      simp only [evalCode] at h
      rw [Prod.mk.injEq] at h
      obtain ⟨rfl, rfl⟩ := h
      exact ⟨hk, hn⟩
    | GetVar name =>
      simp only [evalCode] at h
      rw [Prod.mk.injEq] at h
      obtain ⟨rfl, rfl⟩ := h
      exact ⟨hk, hn⟩
    | DefVar name c =>
      simp only [wf_defun_names] at hwf
      simp only [evalCode] at h
      split at h
      · rename_i e st1 heq
        rw [Prod.mk.injEq] at h
        obtain ⟨rfl, rfl⟩ := h
        exact IH c st _ _ hwf hk hn heq
      · rename_i v st1 heq
        obtain ⟨hk1, hn1⟩ := IH c st _ st1 hwf hk hn heq
        split at h
        · rw [Prod.mk.injEq] at h
          obtain ⟨rfl, rfl⟩ := h
          exact ⟨hk1, hn1⟩
        · rw [Prod.mk.injEq] at h
          obtain ⟨rfl, rfl⟩ := h
          exact ⟨hk1, hn1⟩
    | SetVar name c =>
      simp only [wf_defun_names] at hwf
      simp only [evalCode] at h
      split at h
      · rename_i e st1 heq
        rw [Prod.mk.injEq] at h
        obtain ⟨rfl, rfl⟩ := h
        exact IH c st _ _ hwf hk hn heq
      · rename_i v st1 heq
        obtain ⟨hk1, hn1⟩ := IH c st _ st1 hwf hk hn heq
        split at h
        · rw [Prod.mk.injEq] at h
          obtain ⟨rfl, rfl⟩ := h
          exact ⟨hk1, hn1⟩
        · rw [Prod.mk.injEq] at h
          obtain ⟨rfl, rfl⟩ := h
          exact ⟨hk1, hn1⟩
    | BinaryOp op l r2 =>
      simp only [wf_defun_names, Bool.and_eq_true] at hwf
      obtain ⟨hwl, hwr⟩ := hwf
      simp only [evalCode] at h
      split at h
      · rename_i e st1 heq
        rw [Prod.mk.injEq] at h
        obtain ⟨rfl, rfl⟩ := h
        exact IH l st _ _ hwl hk hn heq
      · rename_i lv st1 heq
        obtain ⟨hk1, hn1⟩ := IH l st _ st1 hwl hk hn heq
        split at h
        · rename_i e st3 heq2
          rw [Prod.mk.injEq] at h
          obtain ⟨rfl, rfl⟩ := h
          exact IH r2 st1 _ _ hwr hk1 hn1 heq2
        · rename_i rv st3 heq2
          rw [Prod.mk.injEq] at h
          obtain ⟨rfl, rfl⟩ := h
          exact IH r2 st1 _ st3 hwr hk1 hn1 heq2
    | UnaryOp op c =>
      simp only [wf_defun_names] at hwf
      simp only [evalCode] at h
      split at h
      · rename_i e st1 heq
        rw [Prod.mk.injEq] at h
        obtain ⟨rfl, rfl⟩ := h
        exact IH c st _ _ hwf hk hn heq
      · rename_i v st1 heq
        rw [Prod.mk.injEq] at h
        obtain ⟨rfl, rfl⟩ := h
        exact IH c st _ st1 hwf hk hn heq
    | XPrint c =>
      simp only [wf_defun_names] at hwf
      simp only [evalCode] at h
      split at h
      · rename_i e st1 heq
        rw [Prod.mk.injEq] at h
        obtain ⟨rfl, rfl⟩ := h
        exact IH c st _ _ hwf hk hn heq
      · rename_i v st1 heq
        rw [Prod.mk.injEq] at h
        obtain ⟨rfl, rfl⟩ := h
        exact IH c st _ st1 hwf hk hn heq
    | Defun name params body =>
      simp only [wf_defun_names, Bool.and_eq_true, bne_iff_ne, ne_eq] at hwf
      obtain ⟨hname, _⟩ := hwf
      simp only [evalCode] at h
      split at h
      · rw [Prod.mk.injEq] at h
        obtain ⟨rfl, rfl⟩ := h
        exact ⟨hk, hn⟩
      · rename_i u1 hself_eq
        split at h
        · rw [Prod.mk.injEq] at h
          obtain ⟨rfl, rfl⟩ := h
          exact ⟨hk, hn⟩
        · rename_i u2 hcross_eq
          rw [Prod.mk.injEq] at h
          obtain ⟨rfl, rfl⟩ := h
          cases u1
          cases u2
          have hself : name ∉ call_names (Function.mk params body).body :=
            (check_self_ok_iff name ⟨params, body⟩).mp hself_eq
          refine ⟨keys_nonempty_define st.env.funcs name ⟨params, body⟩ hk hname, ?_⟩
          exact NoSelfReach_define st.env.funcs name ⟨params, body⟩ hk hn hself hcross_eq
    | Funcall name args =>
      simp only [wf_defun_names, List.all_eq_true, List.mem_attach, true_implies,
        Subtype.forall] at hwf
      simp only [evalCode] at h
      split at h
      · rw [Prod.mk.injEq] at h
        obtain ⟨rfl, rfl⟩ := h
        exact ⟨hk, hn⟩
      · rename_i func hget
        simp only [Function.evalWith] at h
        split at h
        · rw [Prod.mk.injEq] at h
          obtain ⟨rfl, rfl⟩ := h
          exact ⟨hk, hn⟩
        · have hev : ∀ a ∈ args, ∀ stx rx stx2,
              keys_nonempty stx.env.funcs → NoSelfReach stx.env.funcs →
              evalCode fuel a stx = (rx, stx2) →
              keys_nonempty stx2.env.funcs ∧ NoSelfReach stx2.env.funcs := by
            intro a ha stx rx stx2 hkx hnx hx
            exact IH a stx rx stx2 (hwf a ha) hkx hnx hx
          split at h
          · rename_i e st1 heq
            rw [Prod.mk.injEq] at h
            obtain ⟨rfl, rfl⟩ := h
            exact evalBindWith_preserves (evalCode fuel) args hev func.params st
              VariableTable.new _ _ heq hk hn
          · rename_i fvars st1 heq
            rcases hsq : evalSeqWith (evalCode fuel) func.body
                { env := { vars := fvars, funcs := FunctionTable.new }, out := st1.out }
                (Value.num 0) with ⟨rb, stb⟩
            rw [hsq] at h
            have h2 : (rb, ({ env := st1.env, out := stb.out } : EvalState)) = (r, st2) := h
            rw [Prod.mk.injEq] at h2
            obtain ⟨rfl, rfl⟩ := h2
            exact evalBindWith_preserves (evalCode fuel) args hev func.params st
              VariableTable.new _ st1 heq hk hn
    | Conditional cond tc fc =>
      simp only [wf_defun_names, Bool.and_eq_true] at hwf
      obtain ⟨⟨hwc, hwt⟩, hwfc⟩ := hwf
      simp only [evalCode] at h
      split at h
      · rename_i e st1 heq
        rw [Prod.mk.injEq] at h
        obtain ⟨rfl, rfl⟩ := h
        exact IH cond st _ _ hwc hk hn heq
      · rename_i v st1 heq
        obtain ⟨hk1, hn1⟩ := IH cond st _ st1 hwc hk hn heq
        split at h
        · exact IH tc st1 r st2 hwt hk1 hn1 h
        · exact IH fc st1 r st2 hwfc hk1 hn1 h

theorem NoSelfReach_nil : NoSelfReach ⟨[]⟩ := by
  intro n h
  obtain ⟨b, hb, _⟩ := (Relation.TransGen.head'_iff).mp h
  obtain ⟨f, hf, _⟩ := hb
  exact Option.noConfusion hf

theorem recursion_invariant_preserved_witness :
    keys_nonempty ((evalCode 1 (Code.Defun "foo" [] [Code.Funcall "bar" []])
        ⟨⟨⟨[]⟩, ⟨[]⟩⟩, []⟩).2).env.funcs ∧
    NoSelfReach ((evalCode 1 (Code.Defun "foo" [] [Code.Funcall "bar" []])
        ⟨⟨⟨[]⟩, ⟨[]⟩⟩, []⟩).2).env.funcs :=
  recursion_invariant_preserved 1 (Code.Defun "foo" [] [Code.Funcall "bar" []])
    ⟨⟨⟨[]⟩, ⟨[]⟩⟩, []⟩
    (evalCode 1 (Code.Defun "foo" [] [Code.Funcall "bar" []]) ⟨⟨⟨[]⟩, ⟨[]⟩⟩, []⟩).1
    (evalCode 1 (Code.Defun "foo" [] [Code.Funcall "bar" []]) ⟨⟨⟨[]⟩, ⟨[]⟩⟩, []⟩).2
    (by simp [wf_defun_names])
    (fun p hp => absurd hp (List.not_mem_nil p))
    NoSelfReach_nil
    rfl

end PCalc
